import Mathlib

/-!
Shallow embedding of the matching engine in `orderbook.go`.

Modelling conventions:
* Go pointers (`*Order`, `*Limit`) are natural-number ids into association-list
  heaps carried in `EngState`; a nil pointer is `Option.none`.
* Go `float64` prices and sizes are modelled as exact rationals.
* A Go run-time `panic` (the explicit `panic(...)` call in `PlaceMarketOrder` and the
  nil-pointer dereference reachable in `CancelOrder`) is modelled as the `.error`
  case of an `Except GoAbort` result; a panicking call produces no successor state.
* `sort.Sort` (an unstable comparison sort) is modelled as insertion sort on the same
  `Less` relation; on keys that are pairwise distinct every correct sort returns the
  same list, and the lists sorted here (timestamps of distinct orders, prices of
  levels) are treated as such where it matters, via explicit hypotheses.
-/

namespace OBook

/-- Match mirrors Go `Match`: the ask and bid order pointers (order ids here), the
filled size and the price at which the fill happened. -/
structure Match where
  askId : Nat
  bidId : Nat
  sizeFilled : ℚ
  price : ℚ
deriving DecidableEq

/-- Order mirrors Go `Order`: remaining size, side flag, back-pointer to the level the
order currently rests in (nil when not resting), and the arrival timestamp. -/
structure Order where
  size : ℚ
  bid : Bool
  limit : Option Nat
  timestamp : Int
deriving DecidableEq

/-- Limit mirrors Go `Limit`: one price level, its resident order list (arrival order)
and the incrementally maintained total volume. -/
structure Limit where
  price : ℚ
  orders : List Nat
  totalVolume : ℚ
deriving DecidableEq

/-- OrderBook mirrors Go `OrderBook`: the ask/bid level slices plus the price-keyed
maps, each holding level pointers (level ids here). -/
structure OrderBook where
  asks : List Nat
  bids : List Nat
  askLimits : List (ℚ × Nat)
  bidLimits : List (ℚ × Nat)
deriving DecidableEq

/-- EngState is the whole mutable state of the Go program: the book plus the heaps the
level and order pointers point into. -/
structure EngState where
  book : OrderBook
  heapL : List (Nat × Limit)
  heapO : List (Nat × Order)
deriving DecidableEq

/-- Go run-time aborts: the `panic(fmt.Errorf("Not enough volume ..."))` in
`PlaceMarketOrder`, and the nil-pointer dereference in `CancelOrder` when the
canceled order's `Limit` field is nil. -/
inductive GoAbort where
  | notEnoughVolume (avail : ℚ) (sz : ℚ)
  | nilDeref
deriving DecidableEq

/-- Heap read at a key. -/
def lookupA {α : Type} (l : List (Nat × α)) (k : Nat) : Option α :=
  (l.find? (fun p => decide (p.1 = k))).map (·.2)

/-- Heap write at an existing key (a write through a pointer: allocation is a separate
append). -/
def setA {α : Type} (l : List (Nat × α)) (k : Nat) (v : α) : List (Nat × α) :=
  l.map (fun p => if p.1 = k then (k, v) else p)

/-- Key never used by any entry of the heap: models allocating a fresh object. -/
def freshKey {α : Type} (l : List (Nat × α)) : Nat :=
  l.foldr (fun p m => max (p.1 + 1) m) 0

/-- Go map read `m[price]` (nil, i.e. `none`, when absent). -/
def lookupMap (m : List (ℚ × Nat)) (k : ℚ) : Option Nat :=
  (m.find? (fun p => decide (p.1 = k))).map (·.2)

/-- Go `delete(m, price)`. -/
def eraseMap (m : List (ℚ × Nat)) (k : ℚ) : List (ℚ × Nat) :=
  m.filter (fun p => decide (p.1 ≠ k))

/-- Go map assignment `m[price] = l`; in `PlaceLimitOrder` it only runs for a key that
was just found absent, so it is an append. -/
def insertMap (m : List (ℚ × Nat)) (k : ℚ) (v : Nat) : List (ℚ × Nat) :=
  m ++ [(k, v)]

/-- Dereference an order pointer.  The paths proved about below only ever dereference
live pointers, so the default value is never observed there. -/
def getOrder (s : EngState) (oid : Nat) : Order :=
  (lookupA s.heapO oid).getD { size := 0, bid := false, limit := none, timestamp := 0 }

/-- Dereference a level pointer. -/
def getLimit (s : EngState) (lid : Nat) : Limit :=
  (lookupA s.heapL lid).getD { price := 0, orders := [], totalVolume := 0 }

/-- Write through an order pointer. -/
def setOrder (s : EngState) (oid : Nat) (o : Order) : EngState :=
  { s with heapO := setA s.heapO oid o }

/-- Write through a level pointer. -/
def setLimit (s : EngState) (lid : Nat) (l : Limit) : EngState :=
  { s with heapL := setA s.heapL lid l }

/-- Go `isFilled`: `o.Size == 0.0`. -/
def Order.isFilled (o : Order) : Bool := decide (o.size = 0)

/-- Go `NewLimit`: empty resident list, zero-valued total volume. -/
def NewLimit (price : ℚ) : Limit := { price := price, orders := [], totalVolume := 0 }

/-- Go `(l *Limit) AddOrder(o *Order)`: set the back reference, append at the tail of
the resident list, add the order's size to the running volume. -/
def addOrder (s : EngState) (lid oid : Nat) : EngState :=
  let l := getLimit s lid
  let o := getOrder s oid
  let s1 := setOrder s oid { o with limit := some lid }
  setLimit s1 lid { l with orders := l.orders ++ [oid], totalVolume := l.totalVolume + o.size }

/-- Structural engine of `swapRemoveLoop`: `fuel` only bounds the number of loop
iterations (each iteration increments `i` and never lengthens the list, so the exact
budget `xs.length - i` used below never runs out before the loop's own exit test). -/
def swapRemoveGo (xs : List Nat) (o : Nat) (i : Nat) : Nat → List Nat
  | 0 => xs
  | fuel + 1 =>
    if i < xs.length then
      if xs.getD i 0 = o then
        swapRemoveGo ((xs.set i (xs.getD (xs.length - 1) 0)).dropLast) o (i + 1) fuel
      else
        swapRemoveGo xs o (i + 1) fuel
    else xs

/-- Go loop of `DeleteOrder` (also of `clearLimit`): scan from index `i`; at each
occurrence of `o`, copy the last element into its slot and truncate the slice by one,
then keep scanning at the next index against the shortened slice. -/
def swapRemoveLoop (xs : List Nat) (o : Nat) (i : Nat) : List Nat :=
  swapRemoveGo xs o i (xs.length - i)

/-- Timestamp seen through an order pointer. -/
def tsOf (ho : List (Nat × Order)) (a : Nat) : Int :=
  ((lookupA ho a).getD { size := 0, bid := false, limit := none, timestamp := 0 }).timestamp

/-- Go `sort.Sort(l.Orders)` with `Less i j` being `Timestamp i < Timestamp j`:
the resident list in nondecreasing timestamp order. -/
def sortByTimestamp (ho : List (Nat × Order)) (xs : List Nat) : List Nat :=
  xs.insertionSort (fun a b => tsOf ho a ≤ tsOf ho b)

/-- Go `(l *Limit) DeleteOrder(o *Order)`: the swap-remove scan, then clear the back
reference, subtract the (current) size from the volume, and re-sort the whole resident
list by timestamp. -/
def deleteOrder (s : EngState) (lid oid : Nat) : EngState :=
  let l := getLimit s lid
  let o := getOrder s oid
  let orders1 := swapRemoveLoop l.orders oid 0
  let s1 := setOrder s oid { o with limit := none }
  setLimit s1 lid { l with orders := sortByTimestamp s1.heapO orders1,
                           totalVolume := l.totalVolume - o.size }

/-- Go `CancelOrder(o *Order)`: read `o.Limit` and call `limit.DeleteOrder(o)`.  With a
nil `o.Limit` the method call dereferences a nil pointer: a run-time abort.  The
function never touches the `OrderBook`, so an emptied level stays registered. -/
def cancelOrder (s : EngState) (oid : Nat) : Except GoAbort EngState :=
  match (getOrder s oid).limit with
  | none => .error .nilDeref
  | some lid => .ok (deleteOrder s lid oid)

/-- Go `(l *Limit) fillOrder(a, b *Order)`: name the bid and ask of the pairing by
`a.Bid`, then the branch on `a.Size >= b.Size` consumes `b` wholly (reducing `a` by
`b.Size`), otherwise consumes `a` wholly. -/
def fillOrder (price : ℚ) (aId bId : Nat) (a b : Order) : Order × Order × Match :=
  let bidId := if a.bid then aId else bId
  let askId := if a.bid then bId else aId
  if b.size ≤ a.size then
    ({ a with size := a.size - b.size }, { b with size := 0 },
      { askId := askId, bidId := bidId, sizeFilled := b.size, price := price })
  else
    ({ a with size := 0 }, { b with size := b.size - a.size },
      { askId := askId, bidId := bidId, sizeFilled := a.size, price := price })

/-- Heap-level `fillOrder`: apply it to the resident order `rid` (Go's `a`) and the
incoming order `oid` (Go's `b`) in place. -/
def fillOrderS (s : EngState) (price : ℚ) (rid oid : Nat) : EngState × Match :=
  let r := fillOrder price rid oid (getOrder s rid) (getOrder s oid)
  (setOrder (setOrder s rid r.1) oid r.2.1, r.2.2)

/-- Go `Fill` main loop over the snapshot of the resident list: one Match per visited
resident, decrement the level volume by the filled size, collect residents left with
size 0 for deferred deletion, break once the incoming order is filled. -/
def fillLoop (s : EngState) (lid : Nat) (rest : List Nat) (oid : Nat) :
    List Match × List Nat × EngState :=
  match rest with
  | [] => ([], [], s)
  | rid :: rs =>
    let p := fillOrderS s (getLimit s lid).price rid oid
    let m := p.2
    let l1 := getLimit p.1 lid
    let s2 := setLimit p.1 lid { l1 with totalVolume := l1.totalVolume - m.sizeFilled }
    let dels := if (getOrder s2 rid).isFilled then [rid] else []
    if (getOrder s2 oid).isFilled then
      ([m], dels, s2)
    else
      let q := fillLoop s2 lid rs oid
      (m :: q.1, dels ++ q.2.1, q.2.2)

/-- Go `(l *Limit) Fill(o *Order)`: the walk, then the deferred `DeleteOrder` calls on
the residents the walk filled. -/
def fill (s : EngState) (lid oid : Nat) : List Match × EngState :=
  let r := fillLoop s lid (getLimit s lid).orders oid
  (r.1, r.2.1.foldl (fun st rid => deleteOrder st lid rid) r.2.2)

/-- One iteration of the `Fill` loop body before its break test: the in-place
`fillOrder` against the resident `rid` followed by the level-volume decrement.
`fillLoop` on `rid :: rs` is definitionally this step followed by the break test. -/
def fillStep (s : EngState) (lid rid oid : Nat) : EngState × Match :=
  let p := fillOrderS s (getLimit s lid).price rid oid
  let l1 := getLimit p.1 lid
  (setLimit p.1 lid { l1 with totalVolume := l1.totalVolume - p.2.sizeFilled }, p.2)

/-- Go `clearLimit(bid, l)`: delete the level's price from the chosen side's map, then
swap-remove scan the chosen side's level slice for the pointer. -/
def clearLimit (s : EngState) (bidSide : Bool) (lid : Nat) : EngState :=
  let price := (getLimit s lid).price
  if bidSide then
    { s with book := { s.book with
        bidLimits := eraseMap s.book.bidLimits price
        bids := swapRemoveLoop s.book.bids lid 0 } }
  else
    { s with book := { s.book with
        askLimits := eraseMap s.book.askLimits price
        asks := swapRemoveLoop s.book.asks lid 0 } }

/-- Go `AskTotalVolume`: running sum of level volumes over the ask slice. -/
def askTotalVolume (s : EngState) : ℚ :=
  s.book.asks.foldl (fun acc lid => acc + (getLimit s lid).totalVolume) 0

/-- Go `BidTotalVolume`. -/
def bidTotalVolume (s : EngState) : ℚ :=
  s.book.bids.foldl (fun acc lid => acc + (getLimit s lid).totalVolume) 0

/-- Price seen through a level pointer. -/
def priceOf (s : EngState) (lid : Nat) : ℚ := (getLimit s lid).price

/-- Go `Asks()`: the ask slice sorted in place by ascending price (`ByBestAsk`). -/
def sortedAsks (s : EngState) : List Nat :=
  s.book.asks.insertionSort (fun a b => priceOf s a ≤ priceOf s b)

/-- Go `Bids()`: the bid slice sorted in place by descending price (`ByBestBid`). -/
def sortedBids (s : EngState) : List Nat :=
  s.book.bids.insertionSort (fun a b => priceOf s b ≤ priceOf s a)

/-- Go market-order loop, one iteration per level of the sorted snapshot: fill against
the level, then, when its resident list has become empty, call `clearLimit` with the
bid flag hard-wired to `true` exactly as both call sites in `PlaceMarketOrder` write
it.  (Go's `range` walks the array slots of the sorted snapshot; the swap-remove in
`clearLimit` only ever writes slots at or before the one being visited, so the levels
visited are the snapshot entries in order, which is what this model iterates.) -/
def marketLoop (s : EngState) (snapshot : List Nat) (oid : Nat) : List Match × EngState :=
  match snapshot with
  | [] => ([], s)
  | lid :: rest =>
    let r := fill s lid oid
    let s2 := if (getLimit r.2 lid).orders = [] then clearLimit r.2 true lid else r.2
    let q := marketLoop s2 rest oid
    (r.1 ++ q.1, q.2)

/-- Go `PlaceMarketOrder`: the volume pre-check panics (modelled as `.error`) when the
market order size exceeds the opposite side's total volume; otherwise the opposite
side is sorted in place and filled level by level. -/
def placeMarketOrder (s : EngState) (oid : Nat) : Except GoAbort (List Match × EngState) :=
  let o := getOrder s oid
  if o.bid then
    if askTotalVolume s < o.size then
      .error (.notEnoughVolume (askTotalVolume s) o.size)
    else
      let snap := sortedAsks s
      let s1 := { s with book := { s.book with asks := snap } }
      .ok (marketLoop s1 snap oid)
  else
    if bidTotalVolume s < o.size then
      .error (.notEnoughVolume (bidTotalVolume s) o.size)
    else
      let snap := sortedBids s
      let s1 := { s with book := { s.book with bids := snap } }
      .ok (marketLoop s1 snap oid)

/-- Go `PlaceLimitOrder`: resolve the level at the price on the order's own side via
that side's map; when absent, create a fresh level and register it in both the slice
and the map; then `AddOrder`.  No matching is attempted. -/
def placeLimitOrder (s : EngState) (price : ℚ) (oid : Nat) : EngState :=
  let o := getOrder s oid
  let existing := if o.bid then lookupMap s.book.bidLimits price
                  else lookupMap s.book.askLimits price
  match existing with
  | some lid => addOrder s lid oid
  | none =>
    let lid := freshKey s.heapL
    let s1 := { s with heapL := s.heapL ++ [(lid, NewLimit price)] }
    let s2 :=
      if o.bid then
        { s1 with book := { s1.book with
            bids := s1.book.bids ++ [lid]
            bidLimits := insertMap s1.book.bidLimits price lid } }
      else
        { s1 with book := { s1.book with
            asks := s1.book.asks ++ [lid]
            askLimits := insertMap s1.book.askLimits price lid } }
    addOrder s2 lid oid

/-- Go `NewOrderBook` applied to an empty heap: the initial state. -/
def emptyState : EngState :=
  { book := { asks := [], bids := [], askLimits := [], bidLimits := [] },
    heapL := [], heapO := [] }

/-- Go `NewOrder` allocation (fresh object, nil level reference, caller-chosen side,
size and arrival timestamp) followed by `PlaceLimitOrder`. -/
def placeLimitFresh (s : EngState) (price : ℚ) (isBid : Bool) (sz : ℚ) (ts : Int) :
    EngState :=
  let oid := freshKey s.heapO
  let s1 := { s with heapO :=
    s.heapO ++ [(oid, { size := sz, bid := isBid, limit := none, timestamp := ts })] }
  placeLimitOrder s1 price oid

/-- Go `NewOrder` allocation followed by `PlaceMarketOrder`. -/
def placeMarketFresh (s : EngState) (isBid : Bool) (sz : ℚ) (ts : Int) :
    Except GoAbort (List Match × EngState) :=
  let oid := freshKey s.heapO
  let s1 := { s with heapO :=
    s.heapO ++ [(oid, { size := sz, bid := isBid, limit := none, timestamp := ts })] }
  placeMarketOrder s1 oid

/-- Book with one resident ask of size 5 at price 100 plus a freshly allocated market
bid of size 7 (order id 1), i.e. a market order larger than the opposite volume. -/
def c1s : EngState :=
  { book := { asks := [0], bids := [], askLimits := [(100, 0)], bidLimits := [] },
    heapL := [(0, { price := 100, orders := [0], totalVolume := 5 })],
    heapO := [(0, { size := 5, bid := false, limit := some 0, timestamp := 1 }),
              (1, { size := 7, bid := true, limit := none, timestamp := 2 })] }

/-- Book of the spec example behind C2: ask levels at 100 (size 5, order id 0) and 101
(size 5, order id 1), built by two limit placements. -/
def c2book : EngState :=
  placeLimitFresh (placeLimitFresh emptyState 100 false 5 1) 101 false 5 2

/-- Run of the spec example's market bid of size 7 (order id 2) against `c2book`. -/
def c2run : Except GoAbort (List Match × EngState) := placeMarketFresh c2book true 7 3

/-- Matches and final state of `c2run`. -/
def c2res : List Match × EngState := c2run.toOption.getD ([], emptyState)

/-- Book with a single resident bid of size 10 at 10000 (order id 0, level id 0). -/
def c7s : EngState := placeLimitFresh emptyState 10000 true 10 1

/-- State after canceling that bid. -/
def c7s2 : EngState := (cancelOrder c7s 0).toOption.getD emptyState


/-- Trace behind C3: a resident bid 1@100 (order 0, level 0), resident asks 5@100
(order 1, level 1) and 5@101 (order 2, level 2). -/
def c3s1 : EngState := placeLimitFresh emptyState 100 true 1 0

/-- Second step of the C3 trace. -/
def c3s2 : EngState := placeLimitFresh c3s1 100 false 5 1

/-- Third step of the C3 trace. -/
def c3s3 : EngState := placeLimitFresh c3s2 101 false 5 2

/-- Market bid of size 7 (order id 3) against `c3s3`. -/
def c3run : Except GoAbort (List Match × EngState) := placeMarketFresh c3s3 true 7 3

/-- Matches and final state of `c3run`. -/
def c3res : List Match × EngState := c3run.toOption.getD ([], emptyState)

/-- Level id `PlaceLimitOrder` resolves (map hit) or allocates (map miss) for an order
placed at `price`. -/
def placedLid (s : EngState) (price : ℚ) (oid : Nat) : Nat :=
  (if (getOrder s oid).bid then lookupMap s.book.bidLimits price
   else lookupMap s.book.askLimits price).getD (freshKey s.heapL)

/-- Spec example state behind C9: a single bid of size 10 placed at 10000. -/
def c9ex : EngState := placeLimitFresh emptyState 10000 true 10 1

/-- Spec example behind C8: three bids of sizes 5, 8, 10 at 10000. -/
def c8a : EngState :=
  placeLimitFresh (placeLimitFresh (placeLimitFresh emptyState 10000 true 5 1)
    10000 true 8 2) 10000 true 10 3

/-- The C8 example after `DeleteOrder` of the size-8 bid (order id 1, level id 0). -/
def c8b : EngState := deleteOrder c8a 0 1

/-- The C8 example after placing a new size-5 bid. -/
def c8c : EngState := placeLimitFresh c8b 10000 true 5 4

/-- Sum of the sizes of the orders on a list of order ids, as seen through the order
heap. -/
def ordersSizeSum (s : EngState) (os : List Nat) : ℚ :=
  (os.map fun oid => (getOrder s oid).size).sum

/-- Volume book-keeping the volume-conservation claim is about: every level's
`TotalVolume` field equals the sum of its resident orders' sizes. -/
def VolumesOk (s : EngState) : Prop :=
  ∀ p ∈ s.heapL, p.2.totalVolume = ordersSizeSum s p.2.orders

/-- Structural well-formedness of a heap state, as maintained by the Go code for
objects created and wired by its own constructors: unique heap keys, per-level
duplicate-free resident lists of live orders, accurate Order.Limit back references in
both directions, and live level pointers in the two price maps. -/
structure WF (s : EngState) : Prop where
  keysO : (s.heapO.map Prod.fst).Nodup
  keysL : (s.heapL.map Prod.fst).Nodup
  ordNodup : ∀ p ∈ s.heapL, p.2.orders.Nodup
  ordLive : ∀ p ∈ s.heapL, ∀ oid ∈ p.2.orders, (lookupA s.heapO oid).isSome = true
  backRef : ∀ p ∈ s.heapL, ∀ oid ∈ p.2.orders, (getOrder s oid).limit = some p.1
  refBack : ∀ q ∈ s.heapO, ∀ lid, q.2.limit = some lid →
      (lookupA s.heapL lid).isSome = true ∧ q.1 ∈ (getLimit s lid).orders
  mapLiveA : ∀ e ∈ s.book.askLimits, (lookupA s.heapL e.2).isSome = true
  mapLiveB : ∀ e ∈ s.book.bidLimits, (lookupA s.heapL e.2).isSome = true

/-- Zero-size Match that `fillOrder` produces when the incoming order `oid` is already
fully filled and meets the head resident `rid` of the level `lid`. -/
def zeroMatch (s : EngState) (lid rid oid : Nat) : Match :=
  { askId := if (getOrder s rid).bid then oid else rid
    bidId := if (getOrder s rid).bid then rid else oid
    sizeFilled := 0
    price := (getLimit s lid).price }

/-- Post-state and sorted snapshot `PlaceMarketOrder` hands to its fill loop (the
in-place `sort.Sort` of the opposite side). -/
def marketSnapshot (s : EngState) (oid : Nat) : EngState × List Nat :=
  if (getOrder s oid).bid then
    ({ s with book := { s.book with asks := sortedAsks s } }, sortedAsks s)
  else
    ({ s with book := { s.book with bids := sortedBids s } }, sortedBids s)

/-- Resident order referenced by a Match: the ask for a market bid, the bid for a
market ask. -/
def residentOf (isBid : Bool) (m : Match) : Nat :=
  if isBid then m.askId else m.bidId

/-- Price-time behaviour of one `Fill` call of the market loop: every Match carries
the level's (resting) price; the matched residents are exactly the first
`(number of Matches)` residents of the level in their resting order (time priority
when the resting order is arrival order); when the walk stops the level is either
exhausted or the incoming order is fully filled; and whenever the level's residents
rest in strictly increasing arrival-timestamp order (distinct timestamps, arrival
order), the fills hit them in strictly increasing arrival time: earliest first. -/
def FillStepOk (s : EngState) (lid oid : Nat) : Prop :=
  (∀ m ∈ (fill s lid oid).1, m.price = (getLimit s lid).price) ∧
  (fill s lid oid).1.map (residentOf (getOrder s oid).bid) =
    (getLimit s lid).orders.take (fill s lid oid).1.length ∧
  ((getLimit (fill s lid oid).2 lid).orders = []
    ∨ (getOrder (fill s lid oid).2 oid).size = 0) ∧
  (List.Sorted (fun x y => tsOf s.heapO x < tsOf s.heapO y) (getLimit s lid).orders →
    ((fill s lid oid).1.map
      (fun m => tsOf s.heapO (residentOf (getOrder s oid).bid m))).Sorted
      (fun x y => x < y))

/-- Price-time behaviour of the whole market loop, level by level along the sorted
snapshot, threading the state exactly as `marketLoop` does. -/
def PriceTimeRun (s : EngState) (snap : List Nat) (oid : Nat) : Prop :=
  match snap with
  | [] => True
  | lid :: rest =>
    FillStepOk s lid oid ∧
    PriceTimeRun
      (if (getLimit (fill s lid oid).2 lid).orders = [] then
        clearLimit (fill s lid oid).2 true lid
      else (fill s lid oid).2) rest oid

/-- Witness state for the zero-size-fill behaviour: one ask level (order 0, size 5 at
price 100) and an already fully filled market bid (order 1, size 0). -/
def c10s : EngState :=
  { book := { asks := [0], bids := [], askLimits := [(100, 0)], bidLimits := [] },
    heapL := [(0, { price := 100, orders := [0], totalVolume := 5 })],
    heapO := [(0, { size := 5, bid := false, limit := some 0, timestamp := 1 }),
              (1, { size := 0, bid := true, limit := none, timestamp := 2 })] }

/-- Witness book for the price-time claim: two resident asks, 5 at 100 (order 0,
level 0, arrival 1) and 5 at 101 (order 1, level 1, arrival 2), and a freshly
allocated market bid of size 7 (order 2). -/
def c5s : EngState :=
  { book := { asks := [0, 1], bids := [], askLimits := [(100, 0), (101, 1)], bidLimits := [] },
    heapL := [(0, { price := 100, orders := [0], totalVolume := 5 }),
              (1, { price := 101, orders := [1], totalVolume := 5 })],
    heapO := [(0, { size := 5, bid := false, limit := some 0, timestamp := 1 }),
              (1, { size := 5, bid := false, limit := some 1, timestamp := 2 }),
              (2, { size := 7, bid := true, limit := none, timestamp := 3 })] }

/-- Matches and final state of the market bid of `c5s`. -/
def c5res : List Match × EngState :=
  (placeMarketOrder c5s 2).toOption.getD ([], emptyState)

/-- Book states reachable from the empty book by the three public operations, each new
order being a freshly allocated object of positive size (rejecting nonpositive sizes
is the collaborating layer's duty per the spec); an aborting run produces no state. -/
inductive Reachable : EngState → Prop where
  | empty : Reachable emptyState
  | placeLimit {s : EngState} (price : ℚ) (isBid : Bool) {sz : ℚ} (ts : Int)
      (hsz : 0 < sz) (hs : Reachable s) :
      Reachable (placeLimitFresh s price isBid sz ts)
  | placeMarket {s s' : EngState} {isBid : Bool} {sz : ℚ} {ts : Int} {ms : List Match}
      (hsz : 0 < sz) (hs : Reachable s)
      (hok : placeMarketFresh s isBid sz ts = .ok (ms, s')) : Reachable s'
  | cancel {s s' : EngState} {oid : Nat}
      (hs : Reachable s) (hok : cancelOrder s oid = .ok s') : Reachable s'

end OBook

attribute [local semireducible] Rat.add Rat.sub Rat.mul

deriving instance DecidableEq for Except

namespace OBook

/-! Basic lemmas about the heap primitives. -/

/-! Fuel irrelevance and the Go-shaped unfolding equations of `swapRemoveLoop`. -/

theorem swapRemoveGo_succ (o : Nat) :
    ∀ (f : Nat) (xs : List Nat) (i : Nat), xs.length - i ≤ f →
      swapRemoveGo xs o i (f + 1) = swapRemoveGo xs o i f := by
  intro f
  induction f with
  | zero =>
    intro xs i h
    have hi : ¬ i < xs.length := by omega
    simp [swapRemoveGo, hi]
  | succ f ih =>
    intro xs i h
    by_cases hi : i < xs.length
    · by_cases hx : xs.getD i 0 = o
      · have hlen : ((xs.set i (xs.getD (xs.length - 1) 0)).dropLast).length
            = xs.length - 1 := by
          simp [List.length_set]
        simp only [swapRemoveGo, if_pos hi, if_pos hx]
        exact ih _ (i + 1) (by omega)
      · simp only [swapRemoveGo, if_pos hi, if_neg hx]
        exact ih xs (i + 1) (by omega)
    · simp [swapRemoveGo, hi]

theorem swapRemoveGo_of_le (o : Nat) (xs : List Nat) (i : Nat) (f g : Nat)
    (hf : xs.length - i ≤ f) (hfg : f ≤ g) :
    swapRemoveGo xs o i g = swapRemoveGo xs o i f := by
  induction g with
  | zero =>
    have : f = 0 := by omega
    rw [this]
  | succ g ih =>
    rcases Nat.lt_or_ge f (g + 1) with h | h
    · have h1 : f ≤ g := by omega
      rw [swapRemoveGo_succ o g xs i (le_trans hf h1)]
      exact ih h1
    · have : f = g + 1 := by omega
      rw [this]

theorem swapRemoveLoop_stop (xs : List Nat) (o i : Nat) (h : xs.length ≤ i) :
    swapRemoveLoop xs o i = xs := by
  have : xs.length - i = 0 := by omega
  simp [swapRemoveLoop, this, swapRemoveGo]

theorem swapRemoveLoop_miss (xs : List Nat) (o i : Nat) (hi : i < xs.length)
    (hx : xs.getD i 0 ≠ o) :
    swapRemoveLoop xs o i = swapRemoveLoop xs o (i + 1) := by
  have h1 : xs.length - i = (xs.length - (i + 1)) + 1 := by omega
  rw [swapRemoveLoop, h1, swapRemoveGo, if_pos hi, if_neg hx]
  rfl

theorem swapRemoveLoop_hit (xs : List Nat) (o i : Nat) (hi : i < xs.length)
    (hx : xs.getD i 0 = o) :
    swapRemoveLoop xs o i =
      swapRemoveLoop ((xs.set i (xs.getD (xs.length - 1) 0)).dropLast) o (i + 1) := by
  have h1 : xs.length - i = (xs.length - (i + 1)) + 1 := by omega
  have hlen : ((xs.set i (xs.getD (xs.length - 1) 0)).dropLast).length = xs.length - 1 := by
    simp [List.length_set]
  rw [swapRemoveLoop, h1, swapRemoveGo, if_pos hi, if_pos hx, swapRemoveLoop]
  exact swapRemoveGo_of_le o _ (i + 1) _ _ (by omega) (by omega)

theorem lookupA_setA_ne {α : Type} (l : List (Nat × α)) (k k' : Nat) (v : α)
    (h : k' ≠ k) : lookupA (setA l k v) k' = lookupA l k' := by
  induction l with
  | nil => rfl
  | cons p t ih =>
    simp only [lookupA, setA, List.map_cons, List.find?_cons] at *
    by_cases hp : p.1 = k
    · simp only [if_pos hp]
      have h1 : (decide (k = k')) = false := by simp [Ne.symm h]
      have h2 : (decide (p.1 = k')) = false := by simp [hp, Ne.symm h]
      simp only [h1, h2]
      exact ih
    · simp only [if_neg hp]
      by_cases hk : p.1 = k'
      · simp [hk]
      · simp only [decide_eq_false hk]
        exact ih

theorem lookupA_setA_some {α : Type} (l : List (Nat × α)) (k : Nat) (v w : α)
    (h : lookupA l k = some w) : lookupA (setA l k v) k = some v := by
  induction l with
  | nil => simp [lookupA] at h
  | cons p t ih =>
    simp only [lookupA, setA, List.map_cons, List.find?_cons] at *
    by_cases hp : p.1 = k
    · simp [hp]
    · simp only [if_neg hp, decide_eq_false hp] at *
      exact ih h

theorem setA_of_lookupA_none {α : Type} (l : List (Nat × α)) (k : Nat) (v : α)
    (h : lookupA l k = none) : setA l k v = l := by
  induction l with
  | nil => rfl
  | cons p t ih =>
    simp only [lookupA, setA, List.map_cons, List.find?_cons] at *
    by_cases hp : p.1 = k
    · simp [hp] at h
    · simp only [if_neg hp, decide_eq_false hp] at *
      rw [ih h]

theorem setA_keys {α : Type} (l : List (Nat × α)) (k : Nat) (v : α) :
    (setA l k v).map Prod.fst = l.map Prod.fst := by
  induction l with
  | nil => rfl
  | cons p t ih =>
    simp only [setA, List.map_cons] at *
    by_cases hp : p.1 = k
    · simp [hp, ih]
    · simp [hp, ih]

theorem lookupA_append_single {α : Type} (l : List (Nat × α)) (k : Nat) (v : α)
    (h : lookupA l k = none) : lookupA (l ++ [(k, v)]) k = some v := by
  induction l with
  | nil => simp [lookupA]
  | cons p t ih =>
    simp only [lookupA, List.cons_append, List.find?_cons] at *
    by_cases hp : p.1 = k
    · simp [hp] at h
    · simp only [decide_eq_false hp] at *
      exact ih h

theorem lookupA_append_ne {α : Type} (l : List (Nat × α)) (k k' : Nat) (v : α)
    (h : k' ≠ k) : lookupA (l ++ [(k, v)]) k' = lookupA l k' := by
  induction l with
  | nil => simp [lookupA, Ne.symm h]
  | cons p t ih =>
    simp only [lookupA, List.cons_append, List.find?_cons] at *
    by_cases hp : p.1 = k'
    · simp [hp]
    · simp only [decide_eq_false hp] at *
      exact ih

theorem freshKey_gt {α : Type} (l : List (Nat × α)) (p : Nat × α) (h : p ∈ l) :
    p.1 < freshKey l := by
  induction l with
  | nil => cases h
  | cons q t ih =>
    rcases List.mem_cons.mp h with rfl | hm
    · simp only [freshKey, List.foldr_cons]
      omega
    · have := ih hm
      simp only [freshKey, List.foldr_cons] at this ⊢
      omega

theorem lookupA_freshKey {α : Type} (l : List (Nat × α)) :
    lookupA l (freshKey l) = none := by
  cases hf : lookupA l (freshKey l) with
  | none => rfl
  | some v =>
    exfalso
    simp only [lookupA, Option.map_eq_some'] at hf
    obtain ⟨p, hp, -⟩ := hf
    have hmem := List.mem_of_find?_eq_some hp
    have heq := List.find?_some hp
    have hlt := freshKey_gt l p hmem
    simp only [decide_eq_true_eq] at heq
    omega

end OBook

namespace OBook

/-! State read/write lemmas. -/

theorem getLimit_setOrder (s : EngState) (k : Nat) (v : Order) (lid : Nat) :
    getLimit (setOrder s k v) lid = getLimit s lid := rfl

theorem getOrder_setLimit (s : EngState) (k : Nat) (v : Limit) (oid : Nat) :
    getOrder (setLimit s k v) oid = getOrder s oid := rfl

theorem getOrder_setOrder_ne (s : EngState) (k : Nat) (v : Order) (k' : Nat)
    (h : k' ≠ k) : getOrder (setOrder s k v) k' = getOrder s k' := by
  unfold getOrder setOrder
  rw [lookupA_setA_ne _ _ _ _ h]

theorem getOrder_setOrder_self (s : EngState) (k : Nat) (v : Order)
    (h : (lookupA s.heapO k).isSome = true) : getOrder (setOrder s k v) k = v := by
  obtain ⟨w, hw⟩ := Option.isSome_iff_exists.mp h
  unfold getOrder setOrder
  rw [lookupA_setA_some _ _ _ _ hw]
  rfl

theorem getLimit_setLimit_ne (s : EngState) (k : Nat) (v : Limit) (k' : Nat)
    (h : k' ≠ k) : getLimit (setLimit s k v) k' = getLimit s k' := by
  unfold getLimit setLimit
  rw [lookupA_setA_ne _ _ _ _ h]

theorem getLimit_setLimit_self (s : EngState) (k : Nat) (v : Limit)
    (h : (lookupA s.heapL k).isSome = true) : getLimit (setLimit s k v) k = v := by
  obtain ⟨w, hw⟩ := Option.isSome_iff_exists.mp h
  unfold getLimit setLimit
  rw [lookupA_setA_some _ _ _ _ hw]
  rfl

theorem getOrder_size_setOrder (s : EngState) (k : Nat) (v : Order)
    (hsz : v.size = (getOrder s k).size) (k' : Nat) :
    (getOrder (setOrder s k v) k').size = (getOrder s k').size := by
  by_cases h : k' = k
  · subst h
    cases hl : lookupA s.heapO k' with
    | none =>
      unfold getOrder setOrder
      rw [setA_of_lookupA_none _ _ _ hl]
    | some w =>
      have h1 : getOrder (setOrder s k' v) k' = v :=
        getOrder_setOrder_self s k' v (by rw [hl]; rfl)
      rw [h1, hsz]
  · rw [getOrder_setOrder_ne _ _ _ _ h]

/-- C1: whenever a market order's size exceeds the opposite side's total volume,
`PlaceMarketOrder` stops at the volume pre-check and the run is the Go
`panic(fmt.Errorf("Not enough volume ..."))` — modelled as the `GoAbort` error — so
no Match is produced and no successor book state exists (no partial fill).  Note the
abort is a runtime panic, not the typed recoverable `InsufficientLiquidity` failure
result the claim demands. -/
theorem c1_insufficient_liquidity_aborts (s : EngState) (oid : Nat)
    (hvol : (if (getOrder s oid).bid then askTotalVolume s else bidTotalVolume s)
      < (getOrder s oid).size) :
    placeMarketOrder s oid =
      .error (.notEnoughVolume
        (if (getOrder s oid).bid then askTotalVolume s else bidTotalVolume s)
        (getOrder s oid).size) := by
  by_cases hb : (getOrder s oid).bid = true
  · simp only [hb, if_true] at hvol ⊢
    simp only [placeMarketOrder, hb, if_true, if_pos hvol]
  · simp only [Bool.not_eq_true] at hb
    simp only [hb, Bool.false_eq_true, if_false] at hvol ⊢
    simp only [placeMarketOrder, hb, Bool.false_eq_true, if_false, if_pos hvol]

/-- C1 witness: the pre-check fires on `c1s` (ask volume 5, market bid size 7). -/
theorem c1_insufficient_liquidity_aborts_witness :
    (if (getOrder c1s 1).bid then askTotalVolume c1s else bidTotalVolume c1s)
        < (getOrder c1s 1).size ∧
    placeMarketOrder c1s 1 =
      .error (.notEnoughVolume
        (if (getOrder c1s 1).bid then askTotalVolume c1s else bidTotalVolume c1s)
        (getOrder c1s 1).size) :=
  ⟨by decide, c1_insufficient_liquidity_aborts c1s 1 (by decide)⟩

/-- C2: the spec example executes with the right two Matches and the right remaining
volume at 101, but the emptied 100 ask level is NOT removed: both call sites of
`clearLimit` in `PlaceMarketOrder` pass `bid = true`, so for a market bid the removal
is attempted on the bid side and the empty ask level stays in both the ask slice and
the ask map. -/
theorem c2_emptied_ask_level_not_removed :
    c2run = .ok c2res ∧
    c2res.1 = [{ askId := 0, bidId := 2, sizeFilled := 5, price := 100 },
               { askId := 1, bidId := 2, sizeFilled := 2, price := 101 }] ∧
    (getLimit c2res.2 0).orders = [] ∧
    c2res.2.book.asks = [0, 1] ∧
    lookupMap c2res.2.book.askLimits 100 = some 0 ∧
    (getLimit c2res.2 1).totalVolume = 3 := by decide

/-- C6 counterexample: a bid and an ask of equal size 5; the fill zeroes BOTH orders,
so "exactly one of the two orders reaches size == 0" is false. -/
theorem c6_equal_sizes_zero_both :
    ((fillOrder 100 0 1 { size := 5, bid := true, limit := none, timestamp := 0 }
        { size := 5, bid := false, limit := none, timestamp := 1 }).1.size = 0) ∧
    ((fillOrder 100 0 1 { size := 5, bid := true, limit := none, timestamp := 0 }
        { size := 5, bid := false, limit := none, timestamp := 1 }).2.1.size = 0) := by
  decide

/-- C6 amended: for positive sizes, `fillOrder` fills exactly `min(a.size, b.size)` at
the given (level) price, reduces both orders by exactly that amount, and AT LEAST one
order reaches size 0 — exactly one when the sizes differ, both when they are equal. -/
theorem c6_fill_conservation (price : ℚ) (aId bId : Nat) (a b : Order)
    (ha : 0 < a.size) (hb : 0 < b.size) :
    (fillOrder price aId bId a b).2.2.sizeFilled = min a.size b.size ∧
    (fillOrder price aId bId a b).2.2.price = price ∧
    (fillOrder price aId bId a b).1.size = a.size - min a.size b.size ∧
    (fillOrder price aId bId a b).2.1.size = b.size - min a.size b.size ∧
    ((fillOrder price aId bId a b).1.size = 0 ∨ (fillOrder price aId bId a b).2.1.size = 0) ∧
    (a.size ≠ b.size →
      ¬((fillOrder price aId bId a b).1.size = 0 ∧
        (fillOrder price aId bId a b).2.1.size = 0)) := by
  rcases le_or_lt b.size a.size with h | h
  · unfold fillOrder
    rw [if_pos h, min_eq_right h]
    refine ⟨rfl, rfl, rfl, (sub_self b.size).symm, Or.inr rfl, fun hne hc => hne ?_⟩
    have h1 : a.size - b.size = 0 := hc.1
    linarith [sub_eq_zero.mp h1]
  · unfold fillOrder
    rw [if_neg (not_le.mpr h), min_eq_left h.le]
    refine ⟨rfl, rfl, (sub_self a.size).symm, rfl, Or.inl rfl, fun hne hc => hne ?_⟩
    have h2 : b.size - a.size = 0 := hc.2
    linarith [sub_eq_zero.mp h2]

/-- C6 witness: sizes 2 and 3 fill exactly 2. -/
theorem c6_fill_conservation_witness :
    (fillOrder 100 0 1 { size := 2, bid := true, limit := none, timestamp := 0 }
      { size := 3, bid := false, limit := none, timestamp := 1 }).2.2.sizeFilled =
      min 2 3 :=
  (c6_fill_conservation 100 0 1
    { size := 2, bid := true, limit := none, timestamp := 0 }
    { size := 3, bid := false, limit := none, timestamp := 1 }
    (by norm_num) (by norm_num)).1

/-- C7: canceling the sole resident bid deletes the order from its level, but the
emptied level is NOT removed from the book — the bid slice and the bid map still hold
it, as `CancelOrder` has no access to the `OrderBook` at all; and canceling the same
order again (now with a nil level reference) dereferences a nil pointer — a runtime
abort, not a typed `OrderNotResting` failure result. -/
theorem c7_cancel_keeps_empty_level_and_aborts :
    cancelOrder c7s 0 = .ok c7s2 ∧
    (getLimit c7s2 0).orders = [] ∧
    c7s2.book.bids = [0] ∧
    lookupMap c7s2.book.bidLimits 10000 = some 0 ∧
    cancelOrder c7s2 0 = .error .nilDeref := by decide

end OBook

namespace OBook

/-- C3 (counterexample): a reachable state violating both halves of the claimed
invariant.  Trace: rest a bid 1@100, asks 5@100 and 5@101, then run a market bid of
size 7.  The emptied 100 ask level stays in the ask slice and the ask map (its price
is in the map with no resident order), and — because `clearLimit` was told `bid=true`
— the innocent resident bid level at 100 is deleted from the bid MAP while staying in
the bid slice: the map and the slice no longer hold the same set of levels. -/
theorem c3_map_slice_desync_reachable :
    Reachable c3res.2 ∧
    c3res.2.book.bids = [0] ∧
    (getLimit c3res.2 0).orders = [0] ∧
    lookupMap c3res.2.book.bidLimits 100 = none ∧
    c3res.2.book.asks = [1, 2] ∧
    lookupMap c3res.2.book.askLimits 100 = some 1 ∧
    (getLimit c3res.2 1).orders = [] := by
  refine ⟨?_, by decide, by decide, by decide, by decide, by decide, by decide⟩
  exact Reachable.placeMarket (by norm_num)
    (Reachable.placeLimit 101 false 2 (by norm_num)
      (Reachable.placeLimit 100 false 1 (by norm_num)
        (Reachable.placeLimit 100 true 0 (by norm_num) Reachable.empty)))
    (show placeMarketFresh c3s3 true 7 3 = .ok (c3res.1, c3res.2) by decide)

end OBook

namespace OBook

end OBook

namespace OBook

/-- C9: `PlaceLimitOrder` never matches — it produces no Matches (its Go signature
returns nothing) and touches neither the opposite side of the book nor any order's
size: it only appends the placed order at the tail of the level it resolves at that
price on the order's own side, registering a freshly created level in both the slice
and the map when the price was absent — even when the price crosses the opposite best
price.  The hypothesis says only that the side's price map holds live level pointers
(true of every state the code builds).  The final conjunct is the spec's example: one
bid 10@10000 into the empty book gives best bid 10000 with total volume 10 and
exactly one resting order. -/
theorem c9_place_limit_only_rests (s : EngState) (price : ℚ) (oid : Nat)
    (hmap : ∀ lid, (if (getOrder s oid).bid then lookupMap s.book.bidLimits price
        else lookupMap s.book.askLimits price) = some lid →
        (lookupA s.heapL lid).isSome = true) :
    ((getOrder s oid).bid = true →
        (placeLimitOrder s price oid).book.asks = s.book.asks ∧
        (placeLimitOrder s price oid).book.askLimits = s.book.askLimits) ∧
    ((getOrder s oid).bid = false →
        (placeLimitOrder s price oid).book.bids = s.book.bids ∧
        (placeLimitOrder s price oid).book.bidLimits = s.book.bidLimits) ∧
    (∀ oid' : Nat,
        (getOrder (placeLimitOrder s price oid) oid').size = (getOrder s oid').size) ∧
    (getLimit (placeLimitOrder s price oid) (placedLid s price oid)).orders =
        (getLimit s (placedLid s price oid)).orders ++ [oid] ∧
    (∀ lid' : Nat, lid' ≠ placedLid s price oid →
        getLimit (placeLimitOrder s price oid) lid' = getLimit s lid') ∧
    ((if (getOrder s oid).bid then lookupMap s.book.bidLimits price
        else lookupMap s.book.askLimits price) = none →
      (if (getOrder s oid).bid then
        (placeLimitOrder s price oid).book.bids = s.book.bids ++ [placedLid s price oid] ∧
        (placeLimitOrder s price oid).book.bidLimits =
          s.book.bidLimits ++ [(price, placedLid s price oid)]
      else
        (placeLimitOrder s price oid).book.asks = s.book.asks ++ [placedLid s price oid] ∧
        (placeLimitOrder s price oid).book.askLimits =
          s.book.askLimits ++ [(price, placedLid s price oid)])) ∧
    (sortedBids c9ex = [0] ∧ priceOf c9ex 0 = 10000 ∧
      (getLimit c9ex 0).totalVolume = 10 ∧ (getLimit c9ex 0).orders = [0]) := by
  cases hex : (if (getOrder s oid).bid then lookupMap s.book.bidLimits price
      else lookupMap s.book.askLimits price) with
  | some lid =>
    have hL : placedLid s price oid = lid := by
      unfold placedLid
      rw [hex]
      rfl
    have hlive : (lookupA s.heapL lid).isSome = true := hmap lid hex
    have hstep : placeLimitOrder s price oid = addOrder s lid oid := by
      simp only [placeLimitOrder, hex]
    have hbody : addOrder s lid oid =
        setLimit (setOrder s oid { getOrder s oid with limit := some lid }) lid
          { getLimit s lid with
              orders := (getLimit s lid).orders ++ [oid]
              totalVolume := (getLimit s lid).totalVolume + (getOrder s oid).size } := rfl
    rw [hstep, hbody, hL]
    refine ⟨fun _ => ⟨rfl, rfl⟩, fun _ => ⟨rfl, rfl⟩, ?_, ?_, ?_, ?_, by decide⟩
    · intro oid'
      rw [getOrder_setLimit]
      refine getOrder_size_setOrder _ oid _ ?_ oid'
      rfl
    · rw [getLimit_setLimit_self _ lid _ (by exact hlive)]
    · intro lid' hne
      rw [getLimit_setLimit_ne _ _ _ _ hne]
      rfl
    · intro hnone
      exact Option.noConfusion hnone
  | none =>
    have hL : placedLid s price oid = freshKey s.heapL := by
      unfold placedLid
      rw [hex]
      rfl
    have hfresh : lookupA s.heapL (freshKey s.heapL) = none := lookupA_freshKey s.heapL
    have hgetfresh : getLimit s (freshKey s.heapL) =
        { price := 0, orders := [], totalVolume := 0 } := by
      unfold getLimit
      rw [hfresh]
      rfl
    cases hbid : (getOrder s oid).bid with
    | true =>
      have hex' : lookupMap s.book.bidLimits price = none := by
        rw [hbid] at hex
        simpa using hex
      have hstep : placeLimitOrder s price oid =
          addOrder { s with
              book := { s.book with
                bids := s.book.bids ++ [freshKey s.heapL]
                bidLimits := insertMap s.book.bidLimits price (freshKey s.heapL) }
              heapL := s.heapL ++ [(freshKey s.heapL, NewLimit price)] }
            (freshKey s.heapL) oid := by
        simp only [placeLimitOrder, hex', hbid, if_true]
      have hS2L : getLimit { s with
              book := { s.book with
                bids := s.book.bids ++ [freshKey s.heapL]
                bidLimits := insertMap s.book.bidLimits price (freshKey s.heapL) }
              heapL := s.heapL ++ [(freshKey s.heapL, NewLimit price)] }
            (freshKey s.heapL) = NewLimit price := by
        unfold getLimit
        rw [show ({ s with
              book := { s.book with
                bids := s.book.bids ++ [freshKey s.heapL]
                bidLimits := insertMap s.book.bidLimits price (freshKey s.heapL) }
              heapL := s.heapL ++ [(freshKey s.heapL, NewLimit price)] } : EngState).heapL
            = s.heapL ++ [(freshKey s.heapL, NewLimit price)] from rfl]
        rw [lookupA_append_single _ _ _ hfresh]
        rfl
      rw [hstep]
      unfold addOrder
      rw [hS2L]
      refine ⟨fun _ => ⟨rfl, rfl⟩, ?_, ?_, ?_, ?_, ?_, by decide⟩
      · intro hf
        cases hf
      · intro oid'
        rw [getOrder_setLimit]
        refine getOrder_size_setOrder _ oid _ ?_ oid'
        rfl
      · rw [hL, getLimit_setLimit_self]
        · rw [hgetfresh]
          rfl
        · show (lookupA (s.heapL ++ [(freshKey s.heapL, NewLimit price)])
              (freshKey s.heapL)).isSome = true
          rw [lookupA_append_single _ _ _ hfresh]
          rfl
      · intro lid' hne
        rw [hL] at hne
        rw [getLimit_setLimit_ne _ _ _ _ hne]
        show getLimit { s with
              book := { s.book with
                bids := s.book.bids ++ [freshKey s.heapL]
                bidLimits := insertMap s.book.bidLimits price (freshKey s.heapL) }
              heapL := s.heapL ++ [(freshKey s.heapL, NewLimit price)] } lid' = getLimit s lid'
        unfold getLimit
        rw [show ({ s with
              book := { s.book with
                bids := s.book.bids ++ [freshKey s.heapL]
                bidLimits := insertMap s.book.bidLimits price (freshKey s.heapL) }
              heapL := s.heapL ++ [(freshKey s.heapL, NewLimit price)] } : EngState).heapL
            = s.heapL ++ [(freshKey s.heapL, NewLimit price)] from rfl]
        rw [lookupA_append_ne _ _ _ _ hne]
      · intro hno
        exact ⟨by rw [hL]; rfl, by rw [hL]; rfl⟩
    | false =>
      have hex' : lookupMap s.book.askLimits price = none := by
        rw [hbid] at hex
        simpa using hex
      have hstep : placeLimitOrder s price oid =
          addOrder { s with
              book := { s.book with
                asks := s.book.asks ++ [freshKey s.heapL]
                askLimits := insertMap s.book.askLimits price (freshKey s.heapL) }
              heapL := s.heapL ++ [(freshKey s.heapL, NewLimit price)] }
            (freshKey s.heapL) oid := by
        simp only [placeLimitOrder, hex', hbid, Bool.false_eq_true, if_false]
      have hS2L : getLimit { s with
              book := { s.book with
                asks := s.book.asks ++ [freshKey s.heapL]
                askLimits := insertMap s.book.askLimits price (freshKey s.heapL) }
              heapL := s.heapL ++ [(freshKey s.heapL, NewLimit price)] }
            (freshKey s.heapL) = NewLimit price := by
        unfold getLimit
        rw [show ({ s with
              book := { s.book with
                asks := s.book.asks ++ [freshKey s.heapL]
                askLimits := insertMap s.book.askLimits price (freshKey s.heapL) }
              heapL := s.heapL ++ [(freshKey s.heapL, NewLimit price)] } : EngState).heapL
            = s.heapL ++ [(freshKey s.heapL, NewLimit price)] from rfl]
        rw [lookupA_append_single _ _ _ hfresh]
        rfl
      rw [hstep]
      unfold addOrder
      rw [hS2L]
      refine ⟨?_, fun _ => ⟨rfl, rfl⟩, ?_, ?_, ?_, ?_, by decide⟩
      · intro ht
        cases ht
      · intro oid'
        rw [getOrder_setLimit]
        refine getOrder_size_setOrder _ oid _ ?_ oid'
        rfl
      · rw [hL, getLimit_setLimit_self]
        · rw [hgetfresh]
          rfl
        · show (lookupA (s.heapL ++ [(freshKey s.heapL, NewLimit price)])
              (freshKey s.heapL)).isSome = true
          rw [lookupA_append_single _ _ _ hfresh]
          rfl
      · intro lid' hne
        rw [hL] at hne
        rw [getLimit_setLimit_ne _ _ _ _ hne]
        show getLimit { s with
              book := { s.book with
                asks := s.book.asks ++ [freshKey s.heapL]
                askLimits := insertMap s.book.askLimits price (freshKey s.heapL) }
              heapL := s.heapL ++ [(freshKey s.heapL, NewLimit price)] } lid' = getLimit s lid'
        unfold getLimit
        rw [show ({ s with
              book := { s.book with
                asks := s.book.asks ++ [freshKey s.heapL]
                askLimits := insertMap s.book.askLimits price (freshKey s.heapL) }
              heapL := s.heapL ++ [(freshKey s.heapL, NewLimit price)] } : EngState).heapL
            = s.heapL ++ [(freshKey s.heapL, NewLimit price)] from rfl]
        rw [lookupA_append_ne _ _ _ _ hne]
      · intro hno
        exact ⟨by rw [hL]; rfl, by rw [hL]; rfl⟩

/-- C9 witness: the example placement applied through the main theorem; the empty map
discharges the liveness hypothesis. -/
theorem c9_place_limit_only_rests_witness :
    (getLimit (placeLimitOrder
        { emptyState with
            heapO := [(0, { size := 10, bid := true, limit := none, timestamp := 1 })] }
        10000 0) 0).orders = [] ++ [0] := by
  have h := c9_place_limit_only_rests
    { emptyState with
        heapO := [(0, { size := 10, bid := true, limit := none, timestamp := 1 })] }
    10000 0 (by intro lid hl; cases hl)
  exact h.2.2.2.1

end OBook

namespace OBook

theorem swapRemoveLoop_of_no_hit (o : Nat) :
    ∀ (k : Nat) (xs : List Nat) (i : Nat), xs.length - i ≤ k →
      (∀ j, i ≤ j → j < xs.length → xs.getD j 0 ≠ o) → swapRemoveLoop xs o i = xs := by
  intro k
  induction k with
  | zero =>
    intro xs i hk h
    exact swapRemoveLoop_stop xs o i (by omega)
  | succ k ih =>
    intro xs i hk h
    by_cases hi : i < xs.length
    · rw [swapRemoveLoop_miss xs o i hi (h i le_rfl hi)]
      exact ih xs (i + 1) (by omega) (fun j hj hjl => h j (by omega) hjl)
    · exact swapRemoveLoop_stop xs o i (by omega)

theorem swapRemoveLoop_skip (xs : List Nat) (o : Nat) :
    ∀ (d i : Nat), i + d ≤ xs.length →
      (∀ j, i ≤ j → j < i + d → xs.getD j 0 ≠ o) →
      swapRemoveLoop xs o i = swapRemoveLoop xs o (i + d) := by
  intro d
  induction d with
  | zero => intro i _ _; rfl
  | succ d ih =>
    intro i hle h
    rw [swapRemoveLoop_miss xs o i (by omega) (h i le_rfl (by omega))]
    have := ih (i + 1) (by omega) (fun j hj hjl => h j (by omega) (by omega))
    rw [this]
    congr 1
    omega

theorem getD_lt_mem (xs : List Nat) (j : Nat) (h : j < xs.length) :
    xs.getD j 0 ∈ xs := by
  rw [List.getD_eq_getElem?_getD, List.getElem?_eq_getElem h]
  exact List.getElem_mem h

theorem getD_append_self (A : List Nat) (x : Nat) (B : List Nat) :
    (A ++ x :: B).getD A.length 0 = x := by
  induction A with
  | nil => rfl
  | cons a A ih => simpa using ih

theorem getD_concat_self (l : List Nat) (b : Nat) :
    (l ++ [b]).getD l.length 0 = b := getD_append_self l b []

theorem set_append_self (A : List Nat) (x v : Nat) (B : List Nat) :
    (A ++ x :: B).set A.length v = A ++ v :: B := by
  induction A with
  | nil => rfl
  | cons a A ih => simp [ih]

theorem getD_append_left (A B : List Nat) (j : Nat) (h : j < A.length) :
    (A ++ B).getD j 0 = A.getD j 0 := by
  rw [List.getD_eq_getElem?_getD, List.getD_eq_getElem?_getD,
    List.getElem?_append_left h]

/-- Behaviour of the Go swap-remove scan on a duplicate-free list: it removes exactly
the (unique) occurrence of `o`, i.e. it returns a permutation of the
order-preserving `erase`. -/
theorem swapRemoveLoop_perm_erase (xs : List Nat) (o : Nat) (hnd : xs.Nodup) :
    (swapRemoveLoop xs o 0).Perm (xs.erase o) := by
  by_cases hm : o ∈ xs
  · obtain ⟨A, B, rfl⟩ := List.append_of_mem hm
    rw [List.nodup_append] at hnd
    have hoA : o ∉ A := fun hA => (hnd.2.2 hA) (List.mem_cons_self o B)
    have hoB : o ∉ B := by
      have hcons := hnd.2.1
      rw [List.nodup_cons] at hcons
      exact hcons.1
    have herase : (A ++ o :: B).erase o = A ++ B := by
      rw [List.erase_append_right _ hoA, List.erase_cons_head]
    have hlen : (A ++ o :: B).length = A.length + B.length + 1 := by
      rw [List.length_append, List.length_cons]
      omega
    have hAlen : A.length < (A ++ o :: B).length := by omega
    have hskip : swapRemoveLoop (A ++ o :: B) o 0 =
        swapRemoveLoop (A ++ o :: B) o A.length := by
      have := swapRemoveLoop_skip (A ++ o :: B) o A.length 0 (by omega)
        (fun j hj hjl => by
          have hjA : j < A.length := by omega
          rw [show A ++ o :: B = A ++ (o :: B) from rfl, getD_append_left _ _ _ hjA]
          exact fun hcon => hoA (hcon ▸ getD_lt_mem A j hjA))
      simpa using this
    rw [hskip, herase]
    have hhit : (A ++ o :: B).getD A.length 0 = o := getD_append_self A o B
    rcases List.eq_nil_or_concat B with rfl | ⟨B', b, rfl⟩
    · have hlast : (A ++ [o]).getD ((A ++ [o]).length - 1) 0 = o := by
        rw [show (A ++ [o]).length - 1 = A.length by simp]
        exact getD_concat_self A o
      rw [swapRemoveLoop_hit _ _ _ hAlen hhit, hlast, set_append_self,
        show ((A ++ [o] : List Nat).dropLast) = A from List.dropLast_concat]
      rw [swapRemoveLoop_stop A o (A.length + 1) (by omega)]
      simp
    · simp only [List.concat_eq_append] at hoB hhit hAlen
      have hoB' : o ∉ B' := fun h => hoB (List.mem_append_left _ h)
      have hob : o ≠ b := fun h => hoB (List.mem_append_right _ (by
        rw [h]
        exact List.mem_singleton_self b))
      rw [show (B'.concat b : List Nat) = B' ++ [b] from List.concat_eq_append B' b]
      have hlast : (A ++ o :: (B' ++ [b])).getD ((A ++ o :: (B' ++ [b])).length - 1) 0 = b := by
        rw [show (A ++ o :: (B' ++ [b])).length - 1 = (A ++ o :: B').length by simp,
          show A ++ o :: (B' ++ [b]) = (A ++ o :: B') ++ [b] by simp]
        exact getD_concat_self _ b
      rw [swapRemoveLoop_hit _ _ _ hAlen hhit, hlast, set_append_self,
        show ((A ++ b :: (B' ++ [b]) : List Nat).dropLast) = A ++ b :: B' by
          rw [show A ++ b :: (B' ++ [b]) = (A ++ b :: B') ++ [b] by simp,
            List.dropLast_concat]]
      have hnomem : o ∉ A ++ b :: B' := by
        intro hcon
        rcases List.mem_append.mp hcon with h | h
        · exact hoA h
        · rcases List.mem_cons.mp h with h | h
          · exact hob h
          · exact hoB' h
      rw [swapRemoveLoop_of_no_hit o (A ++ b :: B').length _ _ (by omega)
        (fun j hj hjl hcon => hnomem (hcon ▸ getD_lt_mem _ j hjl))]
      exact List.Perm.append_left A ((List.perm_append_singleton b B').symm)
  · rw [List.erase_of_not_mem hm,
      swapRemoveLoop_of_no_hit o xs.length xs 0 (by omega)
        (fun j hj hjl hcon => hm (hcon ▸ getD_lt_mem xs j hjl))]

/-- Insertion sort by timestamps sends any permutation of a strictly-sorted list back
to that list: with pairwise-distinct keys the sorted arrangement is unique, so the
model's insertion sort returns exactly what any correct `sort.Sort` would. -/
theorem sortByTimestamp_eq_of_perm (ho : List (Nat × Order)) (ys zs : List Nat)
    (hperm : ys.Perm zs)
    (hsorted : zs.Pairwise (fun a b => tsOf ho a < tsOf ho b)) :
    sortByTimestamp ho ys = zs := by
  haveI h1 : IsTotal Nat (fun a b => tsOf ho a ≤ tsOf ho b) :=
    ⟨fun a b => le_total (tsOf ho a) (tsOf ho b)⟩
  haveI h2 : IsTrans Nat (fun a b => tsOf ho a ≤ tsOf ho b) :=
    ⟨fun a b c hab hbc => le_trans hab hbc⟩
  haveI h3 : IsAntisymm Nat (fun a b => tsOf ho a < tsOf ho b) :=
    ⟨fun a b hab hba => absurd hab (lt_asymm hba)⟩
  have hsort : List.Sorted (fun a b => tsOf ho a ≤ tsOf ho b) (sortByTimestamp ho ys) :=
    List.sorted_insertionSort _ ys
  have hpermsort : (sortByTimestamp ho ys).Perm zs :=
    (List.perm_insertionSort _ ys).trans hperm
  have hne : zs.Pairwise (fun a b => tsOf ho a ≠ tsOf ho b) :=
    hsorted.imp (fun h => ne_of_lt h)
  have hsymm : Symmetric (fun a b : Nat => tsOf ho a ≠ tsOf ho b) :=
    fun a b h => fun e => h e.symm
  have hne' : (sortByTimestamp ho ys).Pairwise (fun a b => tsOf ho a ≠ tsOf ho b) :=
    (List.Perm.pairwise_iff (fun hab => hsymm hab) hpermsort).mpr hne
  have hstrict : (sortByTimestamp ho ys).Pairwise (fun a b => tsOf ho a < tsOf ho b) :=
    (hsort.and hne').imp (fun h => lt_of_le_of_ne h.1 h.2)
  exact List.eq_of_perm_of_sorted hpermsort hstrict hsorted

/-- Writing an order value with an unchanged timestamp changes no timestamp seen
through the heap. -/
theorem tsOf_setA_same_ts (ho : List (Nat × Order)) (k : Nat) (v : Order)
    (hts : v.timestamp = tsOf ho k) : tsOf (setA ho k v) = tsOf ho := by
  funext a
  by_cases h : a = k
  · subst h
    cases hl : lookupA ho a with
    | none =>
      unfold tsOf
      rw [setA_of_lookupA_none _ _ _ hl]
    | some w =>
      unfold tsOf
      rw [lookupA_setA_some _ _ _ _ hl, hl]
      unfold tsOf at hts
      rw [hl] at hts
      exact hts
  · unfold tsOf
    rw [lookupA_setA_ne _ _ _ _ h]

/-- C8: on a level whose resident orders are in strictly increasing timestamp order
(arrival order with pairwise-distinct timestamps), `DeleteOrder` of a resident order
removes exactly that order and preserves the relative order of the remaining
residents (the swap-remove scan breaks the order, but the final `sort.Sort` by
timestamp restores it: the result is the stable `erase`), subtracts the order's size
from the level's total volume, clears the order's level back reference, and changes
no other order and no other level.  The final conjunct is the spec's example: bids
5, 8, 10; delete the 8; add a new 5; the level reads [5, 10, 5] with volume 20. -/
theorem c8_delete_order_stable (s : EngState) (lid oid : Nat)
    (hlive : (lookupA s.heapL lid).isSome = true)
    (hmem : oid ∈ (getLimit s lid).orders)
    (hts : (getLimit s lid).orders.Pairwise
        (fun a b => tsOf s.heapO a < tsOf s.heapO b)) :
    (getLimit (deleteOrder s lid oid) lid).orders = (getLimit s lid).orders.erase oid ∧
    (getLimit (deleteOrder s lid oid) lid).totalVolume =
      (getLimit s lid).totalVolume - (getOrder s oid).size ∧
    (getOrder (deleteOrder s lid oid) oid).limit = none ∧
    (∀ oid', oid' ≠ oid → getOrder (deleteOrder s lid oid) oid' = getOrder s oid') ∧
    (∀ lid', lid' ≠ lid → getLimit (deleteOrder s lid oid) lid' = getLimit s lid') ∧
    ((getLimit c8c 0).orders = [0, 2, 3] ∧
      (getOrder c8c 0).size = 5 ∧ (getOrder c8c 2).size = 10 ∧ (getOrder c8c 3).size = 5 ∧
      (getLimit c8c 0).totalVolume = 20) := by
  have hnd : (getLimit s lid).orders.Nodup :=
    hts.imp (fun h => fun e => absurd (e ▸ h) (lt_irrefl _))
  have htsv : ({ getOrder s oid with limit := none } : Order).timestamp
      = tsOf s.heapO oid := rfl
  have htseq : tsOf (setOrder s oid { getOrder s oid with limit := none }).heapO
      = tsOf s.heapO := tsOf_setA_same_ts s.heapO oid _ htsv
  have hbody : deleteOrder s lid oid =
      setLimit (setOrder s oid { getOrder s oid with limit := none }) lid
        { getLimit s lid with
            orders := sortByTimestamp
              (setOrder s oid { getOrder s oid with limit := none }).heapO
              (swapRemoveLoop (getLimit s lid).orders oid 0)
            totalVolume := (getLimit s lid).totalVolume - (getOrder s oid).size } := rfl
  have hsorteq : sortByTimestamp
      (setOrder s oid { getOrder s oid with limit := none }).heapO
      (swapRemoveLoop (getLimit s lid).orders oid 0)
      = (getLimit s lid).orders.erase oid := by
    unfold sortByTimestamp
    rw [htseq]
    exact sortByTimestamp_eq_of_perm s.heapO _ _
      (swapRemoveLoop_perm_erase _ oid hnd)
      (hts.sublist (List.erase_sublist _ _))
  rw [hbody]
  refine ⟨?_, ?_, ?_, ?_, ?_, by decide⟩
  · rw [getLimit_setLimit_self _ _ _ (by exact hlive)]
    exact hsorteq
  · rw [getLimit_setLimit_self _ _ _ (by exact hlive)]
  · rw [getOrder_setLimit]
    by_cases h : (lookupA s.heapO oid).isSome = true
    · rw [getOrder_setOrder_self _ _ _ h]
    · have hnone : lookupA s.heapO oid = none := by
        cases hl : lookupA s.heapO oid with
        | none => rfl
        | some w => rw [hl] at h; exact absurd rfl h
      unfold getOrder setOrder
      rw [setA_of_lookupA_none _ _ _ hnone, hnone]
      rfl
  · intro oid' hne
    rw [getOrder_setLimit, getOrder_setOrder_ne _ _ _ _ hne]
  · intro lid' hne
    rw [getLimit_setLimit_ne _ _ _ _ hne]
    rfl

/-- C8 witness: deleting the size-8 bid (order id 1) from the example level through
the main theorem leaves residents [0, 2] in original order. -/
theorem c8_delete_order_stable_witness :
    (getLimit (deleteOrder c8a 0 1) 0).orders = [0, 2] := by
  have h := c8_delete_order_stable c8a 0 1 (by decide) (by decide) (by decide)
  rw [h.1]
  decide

end OBook

namespace OBook

theorem setA_eq_of_not_mem {α : Type} (l : List (Nat × α)) (k : Nat) (v : α)
    (h : k ∉ l.map Prod.fst) : setA l k v = l := by
  induction l with
  | nil => rfl
  | cons p t ih =>
    simp only [List.map_cons, List.mem_cons] at h
    push_neg at h
    simp only [setA, List.map_cons]
    rw [if_neg (fun e => h.1 e.symm)]
    have := ih h.2
    simp only [setA] at this
    rw [this]

theorem setA_eq_of_lookupA {α : Type} (l : List (Nat × α)) (k : Nat) (v : α)
    (hnd : (l.map Prod.fst).Nodup) (hl : lookupA l k = some v) : setA l k v = l := by
  induction l with
  | nil => cases hl
  | cons p t ih =>
    simp only [List.map_cons, List.nodup_cons] at hnd
    by_cases hp : p.1 = k
    · have hkt : k ∉ t.map Prod.fst := by
        rw [← hp]
        exact hnd.1
      have hl2 : p.2 = v := by
        simp only [lookupA, List.find?_cons, hp] at hl
        simp at hl
        exact hl
      have htail := setA_eq_of_not_mem t k v hkt
      simp only [setA] at htail ⊢
      rw [List.map_cons, if_pos hp, htail]
      have hpv : (k, v) = p := by
        rw [← hp, ← hl2]
      rw [hpv]
    · have hl' : lookupA t k = some v := by
        simp only [lookupA, List.find?_cons, decide_eq_false hp] at hl
        exact hl
      have htail := ih hnd.2 hl'
      simp only [setA] at htail ⊢
      rw [List.map_cons, if_neg hp, htail]

theorem getLimit_congr_heapL (s s' : EngState) (h : s'.heapL = s.heapL) (lid : Nat) :
    getLimit s' lid = getLimit s lid := by
  unfold getLimit
  rw [h]

theorem getOrder_congr_heapO (s s' : EngState) (h : s'.heapO = s.heapO) (oid : Nat) :
    getOrder s' oid = getOrder s oid := by
  unfold getOrder
  rw [h]

theorem zeroMatch_congr (s s' : EngState) (hL : s'.heapL = s.heapL)
    (hO : s'.heapO = s.heapO) (lid rid oid : Nat) :
    zeroMatch s' lid rid oid = zeroMatch s lid rid oid := by
  unfold zeroMatch
  rw [getOrder_congr_heapO s s' hO, getLimit_congr_heapL s s' hL]

theorem clearLimit_heapL (s : EngState) (b : Bool) (lid : Nat) :
    (clearLimit s b lid).heapL = s.heapL := by
  unfold clearLimit
  by_cases hb : b = true
  · rw [if_pos hb]
  · rw [if_neg hb]

theorem clearLimit_heapO (s : EngState) (b : Bool) (lid : Nat) :
    (clearLimit s b lid).heapO = s.heapO := by
  unfold clearLimit
  by_cases hb : b = true
  · rw [if_pos hb]
  · rw [if_neg hb]

/-- With an empty resident list, `Fill` produces no Matches and changes nothing. -/
theorem fill_nil (s : EngState) (lid oid : Nat)
    (horders : (getLimit s lid).orders = []) : fill s lid oid = ([], s) := by
  unfold fill
  rw [horders]
  rfl

/-- Go `Fill` on an already fully filled incoming order: the walk pairs the head
resident with the zero-size order, producing a single zero-size Match (at the level's
price, for the head resident), mutates nothing (all the writes put back the values
already there), and breaks immediately. -/
theorem fill_zero_incoming (s : EngState) (lid oid rid : Nat) (rest : List Nat)
    (hndO : (s.heapO.map Prod.fst).Nodup) (hndL : (s.heapL.map Prod.fst).Nodup)
    (hzero : (getOrder s oid).size = 0)
    (horders : (getLimit s lid).orders = rid :: rest)
    (hpos : 0 < (getOrder s rid).size) :
    fill s lid oid = ([zeroMatch s lid rid oid], s) := by
  have hble : (getOrder s oid).size ≤ (getOrder s rid).size := by
    rw [hzero]
    exact le_of_lt hpos
  have hfo : fillOrder (getLimit s lid).price rid oid (getOrder s rid) (getOrder s oid) =
      ({ getOrder s rid with size := (getOrder s rid).size - (getOrder s oid).size },
       { getOrder s oid with size := 0 },
       { askId := if (getOrder s rid).bid then oid else rid,
         bidId := if (getOrder s rid).bid then rid else oid,
         sizeFilled := (getOrder s oid).size,
         price := (getLimit s lid).price }) := by
    unfold fillOrder
    rw [if_pos hble]
  have ha : ({ getOrder s rid with size := (getOrder s rid).size - (getOrder s oid).size }
      : Order) = getOrder s rid := by
    rw [hzero, sub_zero]
  have hb : ({ getOrder s oid with size := 0 } : Order) = getOrder s oid := by
    rw [← hzero]
  have hridlive : lookupA s.heapO rid = some (getOrder s rid) := by
    cases hl : lookupA s.heapO rid with
    | none =>
      exfalso
      unfold getOrder at hpos
      rw [hl] at hpos
      simp at hpos
    | some w =>
      unfold getOrder
      rw [hl]
      rfl
  have hsetr : setOrder s rid (getOrder s rid) = s := by
    unfold setOrder
    rw [setA_eq_of_lookupA _ _ _ hndO hridlive]
  have hseto : setOrder s oid (getOrder s oid) = s := by
    unfold setOrder
    cases hl : lookupA s.heapO oid with
    | none => rw [setA_of_lookupA_none _ _ _ hl]
    | some w =>
      have : getOrder s oid = w := by
        unfold getOrder
        rw [hl]
        rfl
      rw [this, setA_eq_of_lookupA _ _ _ hndO hl]
  have hfos : fillOrderS s (getLimit s lid).price rid oid =
      (s, { askId := if (getOrder s rid).bid then oid else rid,
            bidId := if (getOrder s rid).bid then rid else oid,
            sizeFilled := (getOrder s oid).size,
            price := (getLimit s lid).price }) := by
    unfold fillOrderS
    rw [hfo]
    simp only
    rw [ha, hb, hsetr, hseto]
  have hlidlive : lookupA s.heapL lid = some (getLimit s lid) := by
    cases hl : lookupA s.heapL lid with
    | none =>
      exfalso
      unfold getLimit at horders
      rw [hl] at horders
      cases horders
    | some w =>
      unfold getLimit
      rw [hl]
      rfl
  have hsetl : setLimit s lid (getLimit s lid) = s := by
    unfold setLimit
    rw [setA_eq_of_lookupA _ _ _ hndL hlidlive]
  have hvol : ({ getLimit s lid with
      totalVolume := (getLimit s lid).totalVolume - (getOrder s oid).size } : Limit)
      = getLimit s lid := by
    rw [hzero, sub_zero]
  have hnotfilled : (getOrder s rid).isFilled = false := by
    unfold Order.isFilled
    simp only [decide_eq_false_iff_not]
    exact ne_of_gt hpos
  have hfilled : (getOrder s oid).isFilled = true := by
    unfold Order.isFilled
    simp only [decide_eq_true_eq]
    exact hzero
  unfold fill
  rw [horders]
  unfold fillLoop
  rw [hfos]
  simp only
  rw [hvol, hsetl, hnotfilled, hfilled]
  simp only [Bool.false_eq_true, if_false, if_true]
  unfold zeroMatch
  rw [hzero]
  rfl

/-- Zero-phase of the market loop: with the incoming order already fully filled, the
rest of the iteration still calls `Fill` on every remaining level; each non-empty
remaining level contributes exactly one zero-size Match (with that level's price and
its head resident), empty ones contribute none (and merely get `clearLimit`ed again),
and the heaps — hence every level's residents and volume — are unchanged. -/
theorem marketLoop_zero_incoming (oid : Nat) :
    ∀ (snap : List Nat) (s : EngState),
      (s.heapO.map Prod.fst).Nodup → (s.heapL.map Prod.fst).Nodup →
      (getOrder s oid).size = 0 →
      (∀ lid ∈ snap, ∀ rid ∈ (getLimit s lid).orders, 0 < (getOrder s rid).size) →
      (marketLoop s snap oid).1 = snap.filterMap (fun lid =>
          match (getLimit s lid).orders with
          | [] => none
          | rid :: _ => some (zeroMatch s lid rid oid)) ∧
      (marketLoop s snap oid).2.heapL = s.heapL ∧
      (marketLoop s snap oid).2.heapO = s.heapO := by
  intro snap
  induction snap with
  | nil =>
    intro s _ _ _ _
    exact ⟨rfl, rfl, rfl⟩
  | cons lid rest ih =>
    intro s hndO hndL hzero hpos
    cases horders : (getLimit s lid).orders with
    | nil =>
      have hfill : fill s lid oid = ([], s) := fill_nil s lid oid horders
      have hL2 : (clearLimit s true lid).heapL = s.heapL := clearLimit_heapL s true lid
      have hO2 : (clearLimit s true lid).heapO = s.heapO := clearLimit_heapO s true lid
      have hih := ih (clearLimit s true lid)
        (by rw [hO2]; exact hndO) (by rw [hL2]; exact hndL)
        (by rw [getOrder_congr_heapO s _ hO2]; exact hzero)
        (by
          intro lid' hmem rid hrid
          rw [getLimit_congr_heapL s _ hL2] at hrid
          rw [getOrder_congr_heapO s _ hO2]
          exact hpos lid' (List.mem_cons_of_mem _ hmem) rid hrid)
      have hloop : marketLoop s (lid :: rest) oid =
          (([] : List Match) ++ (marketLoop (clearLimit s true lid) rest oid).1,
           (marketLoop (clearLimit s true lid) rest oid).2) := by
        simp only [marketLoop, hfill]
        rw [if_pos horders]
      rw [hloop]
      refine ⟨?_, ?_, ?_⟩
      · simp only [List.nil_append, List.filterMap_cons, horders]
        rw [hih.1]
        apply List.filterMap_congr
        intro lid' hmem'
        rw [getLimit_congr_heapL s _ hL2]
        cases (getLimit s lid').orders with
        | nil => rfl
        | cons r rs =>
          simp only
          rw [zeroMatch_congr s _ hL2 hO2]
      · rw [hih.2.1, hL2]
      · rw [hih.2.2, hO2]
    | cons rid rest' =>
      have hfill : fill s lid oid = ([zeroMatch s lid rid oid], s) :=
        fill_zero_incoming s lid oid rid rest' hndO hndL hzero horders
          (hpos lid (List.mem_cons_self _ _) rid (by rw [horders]; exact List.mem_cons_self _ _))
      have hih := ih s hndO hndL hzero
        (fun lid' hmem rid' hrid => hpos lid' (List.mem_cons_of_mem _ hmem) rid' hrid)
      have hloop : marketLoop s (lid :: rest) oid =
          ([zeroMatch s lid rid oid] ++ (marketLoop s rest oid).1,
           (marketLoop s rest oid).2) := by
        simp only [marketLoop, hfill]
        rw [if_neg (by rw [horders]; exact fun h => List.noConfusion h)]
      rw [hloop]
      exact ⟨by
        simp only [List.filterMap_cons, horders]
        rw [hih.1]
        rfl, hih.2.1, hih.2.2⟩

/-- C10: once a market order is fully filled mid-iteration, `PlaceMarketOrder`'s loop
still calls `Fill` on every remaining level of the sorted snapshot; each remaining
non-empty level contributes exactly one extra Match with `size_filled = 0`, carrying
that level's price and its head resting order (the `zeroMatch`), to the returned
sequence, and leaves every level's resident orders and total volume unchanged (the
heaps are untouched; only already-empty levels get another `clearLimit`). -/
theorem c10_zero_size_matches (s : EngState) (snap : List Nat) (oid : Nat)
    (hndO : (s.heapO.map Prod.fst).Nodup) (hndL : (s.heapL.map Prod.fst).Nodup)
    (hzero : (getOrder s oid).size = 0)
    (hpos : ∀ lid ∈ snap, ∀ rid ∈ (getLimit s lid).orders, 0 < (getOrder s rid).size) :
    (marketLoop s snap oid).1 = snap.filterMap (fun lid =>
        match (getLimit s lid).orders with
        | [] => none
        | rid :: _ => some (zeroMatch s lid rid oid)) ∧
    ∀ lid, (getLimit (marketLoop s snap oid).2 lid).orders = (getLimit s lid).orders ∧
      (getLimit (marketLoop s snap oid).2 lid).totalVolume =
        (getLimit s lid).totalVolume := by
  have h := marketLoop_zero_incoming oid snap s hndO hndL hzero hpos
  refine ⟨h.1, fun lid => ?_⟩
  rw [getLimit_congr_heapL s _ h.2.1]
  exact ⟨rfl, rfl⟩

/-- C10 witness: one non-empty ask level and a zero-size market bid produce exactly
the single zero-size Match for the level's head resident. -/
theorem c10_zero_size_matches_witness :
    (marketLoop c10s [0] 1).1 =
      [{ askId := 0, bidId := 1, sizeFilled := 0, price := 100 }] := by
  have h := c10_zero_size_matches c10s [0] 1 (by decide) (by decide) (by decide)
    (by decide)
  rw [h.1]
  decide

end OBook

namespace OBook

theorem lookupA_append_of_some {α : Type} (l : List (Nat × α)) (e : Nat × α)
    (k : Nat) (v : α) (h : lookupA l k = some v) : lookupA (l ++ [e]) k = some v := by
  induction l with
  | nil => cases h
  | cons p t ih =>
    simp only [lookupA, List.cons_append, List.find?_cons] at *
    by_cases hp : p.1 = k
    · simpa [hp] using h
    · simp only [decide_eq_false hp] at *
      exact ih h

theorem lookupA_of_mem_nodup {α : Type} (l : List (Nat × α)) (p : Nat × α)
    (hmem : p ∈ l) (hnd : (l.map Prod.fst).Nodup) : lookupA l p.1 = some p.2 := by
  induction l with
  | nil => cases hmem
  | cons q t ih =>
    simp only [List.map_cons, List.nodup_cons] at hnd
    rcases List.mem_cons.mp hmem with rfl | hmem'
    · simp [lookupA, List.find?_cons]
    · have hq : q.1 ≠ p.1 := by
        intro e
        exact hnd.1 (e ▸ List.mem_map_of_mem Prod.fst hmem')
      simp only [lookupA, List.find?_cons, decide_eq_false hq]
      exact ih hmem' hnd.2

theorem getOrder_size_eq_of_lookup_some (s s' : EngState) (oid : Nat)
    (h : lookupA s'.heapO oid = lookupA s.heapO oid) :
    getOrder s' oid = getOrder s oid := by
  unfold getOrder
  rw [h]

theorem ordersSizeSum_congr (s s' : EngState) (os : List Nat)
    (h : ∀ rid ∈ os, getOrder s' rid = getOrder s rid) :
    ordersSizeSum s' os = ordersSizeSum s os := by
  unfold ordersSizeSum
  congr 1
  exact List.map_congr_left (fun rid hr => by rw [h rid hr])

theorem ordersSizeSum_perm (s : EngState) (os os' : List Nat) (h : os.Perm os') :
    ordersSizeSum s os = ordersSizeSum s os' := by
  unfold ordersSizeSum
  exact (h.map (fun oid => (getOrder s oid).size)).sum_eq

theorem ordersSizeSum_setOrder_not_mem (s : EngState) (oid : Nat) (o' : Order)
    (os : List Nat) (h : oid ∉ os) :
    ordersSizeSum (setOrder s oid o') os = ordersSizeSum s os :=
  ordersSizeSum_congr s _ os (fun rid hr =>
    getOrder_setOrder_ne s oid o' rid (fun e => h (e ▸ hr)))

theorem ordersSizeSum_setOrder_mem (s : EngState) (oid : Nat) (o' : Order)
    (os : List Nat) (hnd : os.Nodup) (hmem : oid ∈ os)
    (hlive : (lookupA s.heapO oid).isSome = true) :
    ordersSizeSum (setOrder s oid o') os =
      ordersSizeSum s os - (getOrder s oid).size + o'.size := by
  induction os with
  | nil => cases hmem
  | cons r rs ih =>
    rw [List.nodup_cons] at hnd
    rcases List.mem_cons.mp hmem with rfl | hmem'
    · have h1 : getOrder (setOrder s oid o') oid = o' :=
        getOrder_setOrder_self s oid o' hlive
      have h2 : ordersSizeSum (setOrder s oid o') rs = ordersSizeSum s rs :=
        ordersSizeSum_setOrder_not_mem s oid o' rs hnd.1
      unfold ordersSizeSum at *
      simp only [List.map_cons, List.sum_cons] at *
      rw [h1, h2]
      ring
    · have hr : r ≠ oid := fun e => hnd.1 (e ▸ hmem')
      have h1 : getOrder (setOrder s oid o') r = getOrder s r :=
        getOrder_setOrder_ne s oid o' r hr
      have h2 := ih hnd.2 hmem'
      unfold ordersSizeSum at *
      simp only [List.map_cons, List.sum_cons] at *
      rw [h1, h2]
      ring

theorem ordersSizeSum_setLimit (s : EngState) (lid : Nat) (v : Limit) (os : List Nat) :
    ordersSizeSum (setLimit s lid v) os = ordersSizeSum s os :=
  ordersSizeSum_congr s _ os (fun rid _ => getOrder_setLimit s lid v rid)

theorem foldl_add_eq_sum (f : Nat → ℚ) (l : List Nat) :
    ∀ (init : ℚ), l.foldl (fun acc x => acc + f x) init = init + (l.map f).sum := by
  induction l with
  | nil =>
    intro init
    simp
  | cons x xs ih =>
    intro init
    simp only [List.foldl_cons, List.map_cons, List.sum_cons]
    rw [ih]
    ring

theorem mem_of_lookupA {α : Type} (l : List (Nat × α)) (k : Nat) (v : α)
    (h : lookupA l k = some v) : (k, v) ∈ l := by
  unfold lookupA at h
  rw [Option.map_eq_some'] at h
  obtain ⟨p, hp, hv⟩ := h
  have hmem := List.mem_of_find?_eq_some hp
  have hkey := List.find?_some hp
  simp only [decide_eq_true_eq] at hkey
  have : (k, v) = p := by
    rw [← hkey, ← hv]
  rw [this]
  exact hmem

theorem mem_key_unique {α : Type} (l : List (Nat × α))
    (hnd : (l.map Prod.fst).Nodup) (p q : Nat × α)
    (hp : p ∈ l) (hq : q ∈ l) (hk : p.1 = q.1) : p = q := by
  induction l with
  | nil => cases hp
  | cons r t ih =>
    simp only [List.map_cons, List.nodup_cons] at hnd
    rcases List.mem_cons.mp hp with rfl | hp'
    · rcases List.mem_cons.mp hq with rfl | hq'
      · rfl
      · exact absurd (hk ▸ List.mem_map_of_mem Prod.fst hq') hnd.1
    · rcases List.mem_cons.mp hq with rfl | hq'
      · exact absurd (hk ▸ List.mem_map_of_mem Prod.fst hp') hnd.1
      · exact ih hnd.2 hp' hq'

theorem mem_setA {α : Type} (l : List (Nat × α)) (k : Nat) (v : α) (p : Nat × α)
    (hp : p ∈ setA l k v) : p = (k, v) ∨ (p ∈ l ∧ p.1 ≠ k) := by
  unfold setA at hp
  rw [List.mem_map] at hp
  obtain ⟨q, hq, he⟩ := hp
  by_cases hqk : q.1 = k
  · left
    rw [← he, if_pos hqk]
  · right
    rw [← he, if_neg hqk]
    exact ⟨hq, hqk⟩

theorem isSome_setA {α : Type} (l : List (Nat × α)) (k : Nat) (v : α) (k' : Nat) :
    (lookupA (setA l k v) k').isSome = (lookupA l k').isSome := by
  by_cases h : k' = k
  · subst h
    cases hl : lookupA l k' with
    | none => rw [setA_of_lookupA_none _ _ _ hl, hl]
    | some w =>
      rw [lookupA_setA_some _ _ _ _ hl]
      rfl
  · rw [lookupA_setA_ne _ _ _ _ h]

theorem ordersSizeSum_erase (s : EngState) (os : List Nat) (oid : Nat)
    (hnd : os.Nodup) (hmem : oid ∈ os) :
    ordersSizeSum s (os.erase oid) = ordersSizeSum s os - (getOrder s oid).size := by
  induction os with
  | nil => cases hmem
  | cons r rs ih =>
    rw [List.nodup_cons] at hnd
    rcases List.mem_cons.mp hmem with rfl | hmem'
    · rw [List.erase_cons_head]
      unfold ordersSizeSum
      simp only [List.map_cons, List.sum_cons]
      ring
    · have hr : r ≠ oid := fun e => hnd.1 (e ▸ hmem')
      rw [List.erase_cons_tail (by simpa using hr)]
      have := ih hnd.2 hmem'
      unfold ordersSizeSum at *
      simp only [List.map_cons, List.sum_cons]
      rw [this]
      ring

theorem getLimit_of_lookupA (s : EngState) (lid : Nat) (L : Limit)
    (h : lookupA s.heapL lid = some L) : getLimit s lid = L := by
  unfold getLimit
  rw [h]
  rfl

theorem getOrder_of_lookupA (s : EngState) (oid : Nat) (o : Order)
    (h : lookupA s.heapO oid = some o) : getOrder s oid = o := by
  unfold getOrder
  rw [h]
  rfl

/-- Under well-formedness, an order resides in at most one level: any level entry
whose resident list holds `oid` is the entry the order's back reference names. -/
theorem resident_unique (s : EngState) (hwf : WF s) (lid oid : Nat) (L : Limit)
    (hlid : lookupA s.heapL lid = some L) (hmem : oid ∈ L.orders) :
    ∀ p ∈ s.heapL, oid ∈ p.2.orders → p = (lid, L) := by
  intro p hp hop
  have h1 := hwf.backRef p hp oid hop
  have h2 := hwf.backRef (lid, L) (mem_of_lookupA _ _ _ hlid) oid hmem
  have hk : p.1 = lid := by
    rw [h1] at h2
    exact (Option.some.injEq _ _).mp h2
  exact mem_key_unique s.heapL hwf.keysL p (lid, L) hp (mem_of_lookupA _ _ _ hlid) hk

end OBook

namespace OBook

/-- Interior characterisation of `DeleteOrder` on a resident order under
well-formedness: the result stays well-formed and volume-consistent, the target
level's residents become a permutation of the stable erase, and nothing else
changes. -/
theorem deleteOrder_preserves (s : EngState) (lid oid : Nat) (L : Limit)
    (hwf : WF s) (hvol : VolumesOk s)
    (hlid : lookupA s.heapL lid = some L) (hmem : oid ∈ L.orders) :
    WF (deleteOrder s lid oid) ∧ VolumesOk (deleteOrder s lid oid) ∧
    (deleteOrder s lid oid).book = s.book ∧
    (getLimit (deleteOrder s lid oid) lid).orders.Perm (L.orders.erase oid) ∧
    (∀ lid', lid' ≠ lid → getLimit (deleteOrder s lid oid) lid' = getLimit s lid') ∧
    (∀ oid', oid' ≠ oid → getOrder (deleteOrder s lid oid) oid' = getOrder s oid') ∧
    (getOrder (deleteOrder s lid oid) oid = { getOrder s oid with limit := none }) ∧
    (getLimit (deleteOrder s lid oid) lid).price = L.price ∧
    (∀ k, (lookupA (deleteOrder s lid oid).heapL k).isSome
      = (lookupA s.heapL k).isSome) ∧
    (∀ k, (lookupA (deleteOrder s lid oid).heapO k).isSome
      = (lookupA s.heapO k).isSome) := by
  have hndL := hwf.keysL
  have hndO := hwf.keysO
  have hLentry : (lid, L) ∈ s.heapL := mem_of_lookupA _ _ _ hlid
  have hLnd : L.orders.Nodup := hwf.ordNodup (lid, L) hLentry
  have hgetL : getLimit s lid = L := getLimit_of_lookupA s lid L hlid
  have holive : (lookupA s.heapO oid).isSome = true :=
    hwf.ordLive (lid, L) hLentry oid hmem
  have hbody : deleteOrder s lid oid =
      setLimit (setOrder s oid { getOrder s oid with limit := none }) lid
        { getLimit s lid with
            orders := sortByTimestamp
              (setOrder s oid { getOrder s oid with limit := none }).heapO
              (swapRemoveLoop (getLimit s lid).orders oid 0)
            totalVolume := (getLimit s lid).totalVolume - (getOrder s oid).size } := rfl
  set o1 : Order := { getOrder s oid with limit := none } with ho1
  set os1 : List Nat := sortByTimestamp (setOrder s oid o1).heapO
    (swapRemoveLoop (getLimit s lid).orders oid 0) with hos1
  set v1 : Limit := { getLimit s lid with
      orders := os1
      totalVolume := (getLimit s lid).totalVolume - (getOrder s oid).size } with hv1
  have hperm : os1.Perm (L.orders.erase oid) := by
    have hperm0 : (swapRemoveLoop (getLimit s lid).orders oid 0).Perm
        ((getLimit s lid).orders.erase oid) :=
      swapRemoveLoop_perm_erase _ oid (by rw [hgetL]; exact hLnd)
    have hpermsort : os1.Perm (swapRemoveLoop (getLimit s lid).orders oid 0) := by
      rw [hos1]
      unfold sortByTimestamp
      exact List.perm_insertionSort _ _
    refine hpermsort.trans ?_
    rw [hgetL] at hperm0
    rw [show (getLimit s lid).orders = L.orders from by rw [hgetL]]
    exact hperm0
  have hos1noid : oid ∉ os1 := fun h => hLnd.not_mem_erase (hperm.subset h)
  have hv1orders : v1.orders = os1 := rfl
  have heapL1 : (setOrder s oid o1).heapL = s.heapL := rfl
  have hlive1 : (lookupA (setOrder s oid o1).heapL lid).isSome = true := by
    rw [heapL1, hlid]
    rfl
  have hgetL' : getLimit (deleteOrder s lid oid) lid = v1 := by
    rw [hbody]
    exact getLimit_setLimit_self _ lid v1 hlive1
  have hgetLne : ∀ lid', lid' ≠ lid →
      getLimit (deleteOrder s lid oid) lid' = getLimit s lid' := by
    intro lid' hne
    rw [hbody, getLimit_setLimit_ne _ _ _ _ hne]
    rfl
  have hgetOne : ∀ oid', oid' ≠ oid →
      getOrder (deleteOrder s lid oid) oid' = getOrder s oid' := by
    intro oid' hne
    rw [hbody, getOrder_setLimit]
    exact getOrder_setOrder_ne s oid o1 oid' hne
  have hgetOoid : getOrder (deleteOrder s lid oid) oid = o1 := by
    rw [hbody, getOrder_setLimit]
    exact getOrder_setOrder_self s oid o1 holive
  have hmemerase : ∀ rid ∈ os1, rid ∈ L.orders ∧ rid ≠ oid := by
    intro rid hr
    have h1 : rid ∈ L.orders.erase oid := hperm.subset hr
    exact ⟨List.mem_of_mem_erase h1, fun e => hos1noid (e ▸ hr)⟩
  have hother_no_oid : ∀ p ∈ s.heapL, p.1 ≠ lid → oid ∉ p.2.orders := by
    intro p hp hpne hop
    have := resident_unique s hwf lid oid L hlid hmem p hp hop
    rw [this] at hpne
    exact hpne rfl
  have hheapL' : (deleteOrder s lid oid).heapL = setA s.heapL lid v1 := by
    rw [hbody]
    rfl
  have hheapO' : (deleteOrder s lid oid).heapO = setA s.heapO oid o1 := by
    rw [hbody]
    rfl
  have hOsome : ∀ k, (lookupA (deleteOrder s lid oid).heapO k).isSome
      = (lookupA s.heapO k).isSome := by
    intro k
    rw [hheapO']
    exact isSome_setA s.heapO oid o1 k
  have hLsome : ∀ k, (lookupA (deleteOrder s lid oid).heapL k).isSome
      = (lookupA s.heapL k).isSome := by
    intro k
    rw [hheapL']
    exact isSome_setA s.heapL lid v1 k
  refine ⟨?_, ?_, by rw [hbody]; rfl, by rw [hgetL']; exact hperm, hgetLne, hgetOne,
    by rw [hgetOoid], by rw [hgetL', hv1, hgetL], hLsome, hOsome⟩
  · constructor
    · rw [hheapO', setA_keys]
      exact hndO
    · rw [hheapL', setA_keys]
      exact hndL
    · intro p hp
      rw [hheapL'] at hp
      rcases mem_setA _ _ _ _ hp with rfl | ⟨hpold, hpne⟩
      · rw [hv1orders]
        exact (hperm.nodup_iff).mpr (hLnd.erase oid)
      · exact hwf.ordNodup p hpold
    · intro p hp rid hrid
      rw [hOsome]
      rw [hheapL'] at hp
      rcases mem_setA _ _ _ _ hp with rfl | ⟨hpold, hpne⟩
      · have := (hmemerase rid (by rw [← hv1orders]; exact hrid)).1
        exact hwf.ordLive (lid, L) hLentry rid this
      · exact hwf.ordLive p hpold rid hrid
    · intro p hp rid hrid
      rw [hheapL'] at hp
      rcases mem_setA _ _ _ _ hp with rfl | ⟨hpold, hpne⟩
      · obtain ⟨hrL, hrne⟩ := hmemerase rid (by rw [← hv1orders]; exact hrid)
        rw [hgetOne rid hrne]
        exact hwf.backRef (lid, L) hLentry rid hrL
      · have hrne : rid ≠ oid := by
          intro e
          exact hother_no_oid p hpold hpne (e ▸ hrid)
        rw [hgetOne rid hrne]
        exact hwf.backRef p hpold rid hrid
    · intro q hq lid'' hq2
      rw [hheapO'] at hq
      rcases mem_setA _ _ _ _ hq with rfl | ⟨hqold, hqne⟩
      · exfalso
        simp only [ho1] at hq2
        cases hq2
      · have hold := hwf.refBack q hqold lid'' hq2
        refine ⟨by rw [hLsome]; exact hold.1, ?_⟩
        by_cases he : lid'' = lid
        · subst he
          rw [hgetL', hv1orders]
          rw [hgetL] at hold
          rw [hperm.mem_iff]
          exact List.mem_erase_of_ne hqne |>.mpr hold.2
        · rw [hgetLne lid'' he]
          exact hold.2
    · intro e he
      rw [hLsome]
      rw [show (deleteOrder s lid oid).book = s.book from by rw [hbody]; rfl] at he
      exact hwf.mapLiveA e he
    · intro e he
      rw [hLsome]
      rw [show (deleteOrder s lid oid).book = s.book from by rw [hbody]; rfl] at he
      exact hwf.mapLiveB e he
  · intro p hp
    rw [hheapL'] at hp
    rcases mem_setA _ _ _ _ hp with rfl | ⟨hpold, hpne⟩
    · show v1.totalVolume = ordersSizeSum (deleteOrder s lid oid) v1.orders
      rw [show v1.totalVolume
            = (getLimit s lid).totalVolume - (getOrder s oid).size from rfl,
        show v1.orders = os1 from rfl, hgetL,
        ordersSizeSum_congr s (deleteOrder s lid oid) os1
          (fun rid hr => hgetOne rid (hmemerase rid hr).2),
        ordersSizeSum_perm s os1 (L.orders.erase oid) hperm,
        ordersSizeSum_erase s L.orders oid hLnd hmem,
        hvol (lid, L) hLentry]
    · show p.2.totalVolume = ordersSizeSum (deleteOrder s lid oid) p.2.orders
      rw [ordersSizeSum_congr s (deleteOrder s lid oid) p.2.orders
        (fun rid hr => hgetOne rid (fun e => hother_no_oid p hpold hpne (e ▸ hr)))]
      exact hvol p hpold

/-- Interior characterisation of `AddOrder` under well-formedness, for a live level
and a live, not-yet-resting order: the result stays well-formed and
volume-consistent, the order is appended at the level's tail, and nothing else
changes. -/
theorem addOrder_preserves (s : EngState) (lid oid : Nat) (L : Limit)
    (hwf : WF s) (hvol : VolumesOk s)
    (hlid : lookupA s.heapL lid = some L)
    (holive : (lookupA s.heapO oid).isSome = true)
    (hnone : (getOrder s oid).limit = none) :
    WF (addOrder s lid oid) ∧ VolumesOk (addOrder s lid oid) ∧
    (addOrder s lid oid).book = s.book ∧
    getLimit (addOrder s lid oid) lid =
      { L with
          orders := L.orders ++ [oid]
          totalVolume := L.totalVolume + (getOrder s oid).size } ∧
    (∀ lid', lid' ≠ lid → getLimit (addOrder s lid oid) lid' = getLimit s lid') ∧
    (∀ oid', oid' ≠ oid → getOrder (addOrder s lid oid) oid' = getOrder s oid') ∧
    (getOrder (addOrder s lid oid) oid = { getOrder s oid with limit := some lid }) := by
  have hndL := hwf.keysL
  have hndO := hwf.keysO
  have hLentry : (lid, L) ∈ s.heapL := mem_of_lookupA _ _ _ hlid
  have hgetL : getLimit s lid = L := getLimit_of_lookupA s lid L hlid
  have hnotres : ∀ p ∈ s.heapL, oid ∉ p.2.orders := by
    intro p hp hop
    rw [hwf.backRef p hp oid hop] at hnone
    cases hnone
  have hnotmem : oid ∉ L.orders := hnotres (lid, L) hLentry
  have hbody : addOrder s lid oid =
      setLimit (setOrder s oid { getOrder s oid with limit := some lid }) lid
        { getLimit s lid with
            orders := (getLimit s lid).orders ++ [oid]
            totalVolume := (getLimit s lid).totalVolume + (getOrder s oid).size } := rfl
  set o1 : Order := { getOrder s oid with limit := some lid } with ho1
  set v1 : Limit := { getLimit s lid with
      orders := (getLimit s lid).orders ++ [oid]
      totalVolume := (getLimit s lid).totalVolume + (getOrder s oid).size } with hv1
  have hlive1 : (lookupA (setOrder s oid o1).heapL lid).isSome = true := by
    rw [show (setOrder s oid o1).heapL = s.heapL from rfl, hlid]
    rfl
  have hgetL' : getLimit (addOrder s lid oid) lid = v1 := by
    rw [hbody]
    exact getLimit_setLimit_self _ lid v1 hlive1
  have hgetLne : ∀ lid', lid' ≠ lid →
      getLimit (addOrder s lid oid) lid' = getLimit s lid' := by
    intro lid' hne
    rw [hbody, getLimit_setLimit_ne _ _ _ _ hne]
    rfl
  have hgetOne : ∀ oid', oid' ≠ oid →
      getOrder (addOrder s lid oid) oid' = getOrder s oid' := by
    intro oid' hne
    rw [hbody, getOrder_setLimit]
    exact getOrder_setOrder_ne s oid o1 oid' hne
  have hgetOoid : getOrder (addOrder s lid oid) oid = o1 := by
    rw [hbody, getOrder_setLimit]
    exact getOrder_setOrder_self s oid o1 holive
  have hheapL' : (addOrder s lid oid).heapL = setA s.heapL lid v1 := by
    rw [hbody]
    rfl
  have hheapO' : (addOrder s lid oid).heapO = setA s.heapO oid o1 := by
    rw [hbody]
    rfl
  have hOsome : ∀ k, (lookupA (addOrder s lid oid).heapO k).isSome
      = (lookupA s.heapO k).isSome := by
    intro k
    rw [hheapO']
    exact isSome_setA s.heapO oid o1 k
  have hLsome : ∀ k, (lookupA (addOrder s lid oid).heapL k).isSome
      = (lookupA s.heapL k).isSome := by
    intro k
    rw [hheapL']
    exact isSome_setA s.heapL lid v1 k
  have hv1orders : v1.orders = L.orders ++ [oid] := by
    rw [hv1, hgetL]
  refine ⟨?_, ?_, by rw [hbody]; rfl, by rw [hgetL', hv1, hgetL], hgetLne, hgetOne,
    by rw [hgetOoid]⟩
  · constructor
    · rw [hheapO', setA_keys]
      exact hndO
    · rw [hheapL', setA_keys]
      exact hndL
    · intro p hp
      rw [hheapL'] at hp
      rcases mem_setA _ _ _ _ hp with rfl | ⟨hpold, hpne⟩
      · show v1.orders.Nodup
        rw [hv1orders]
        exact (hwf.ordNodup (lid, L) hLentry).append
          (List.nodup_singleton oid) (by simpa using hnotmem)
      · exact hwf.ordNodup p hpold
    · intro p hp rid hrid
      rw [hOsome]
      rw [hheapL'] at hp
      rcases mem_setA _ _ _ _ hp with rfl | ⟨hpold, hpne⟩
      · rw [show ((lid, v1) : Nat × Limit).2.orders = L.orders ++ [oid] from hv1orders]
          at hrid
        rcases List.mem_append.mp hrid with h | h
        · exact hwf.ordLive (lid, L) hLentry rid h
        · rw [List.mem_singleton.mp h]
          exact holive
      · exact hwf.ordLive p hpold rid hrid
    · intro p hp rid hrid
      rw [hheapL'] at hp
      rcases mem_setA _ _ _ _ hp with rfl | ⟨hpold, hpne⟩
      · rw [show ((lid, v1) : Nat × Limit).2.orders = L.orders ++ [oid] from hv1orders]
          at hrid
        rcases List.mem_append.mp hrid with h | h
        · have hrne : rid ≠ oid := fun e => hnotmem (e ▸ h)
          rw [hgetOne rid hrne]
          exact hwf.backRef (lid, L) hLentry rid h
        · rw [List.mem_singleton.mp h, hgetOoid]
      · have hrne : rid ≠ oid := fun e => hnotres p hpold (e ▸ hrid)
        rw [hgetOne rid hrne]
        exact hwf.backRef p hpold rid hrid
    · intro q hq lid'' hq2
      rw [hheapO'] at hq
      rcases mem_setA _ _ _ _ hq with rfl | ⟨hqold, hqne⟩
      · have : lid'' = lid := by
          simp only [ho1] at hq2
          exact (Option.some.injEq _ _).mp hq2.symm
        subst this
        refine ⟨by rw [hLsome, hlid]; rfl, ?_⟩
        rw [hgetL', hv1orders]
        exact List.mem_append_right _ (List.mem_singleton_self oid)
      · have hold := hwf.refBack q hqold lid'' hq2
        refine ⟨by rw [hLsome]; exact hold.1, ?_⟩
        by_cases he : lid'' = lid
        · subst he
          rw [hgetL', hv1orders]
          rw [hgetL] at hold
          exact List.mem_append_left _ hold.2
        · rw [hgetLne lid'' he]
          exact hold.2
    · intro e he
      rw [hLsome]
      rw [show (addOrder s lid oid).book = s.book from by rw [hbody]; rfl] at he
      exact hwf.mapLiveA e he
    · intro e he
      rw [hLsome]
      rw [show (addOrder s lid oid).book = s.book from by rw [hbody]; rfl] at he
      exact hwf.mapLiveB e he
  · intro p hp
    rw [hheapL'] at hp
    rcases mem_setA _ _ _ _ hp with rfl | ⟨hpold, hpne⟩
    · show v1.totalVolume = ordersSizeSum (addOrder s lid oid) v1.orders
      have hA : ordersSizeSum (addOrder s lid oid) L.orders = ordersSizeSum s L.orders :=
        ordersSizeSum_congr s _ L.orders
          (fun rid hr => hgetOne rid (fun e => hnotmem (e ▸ hr)))
      have hb : (getOrder (addOrder s lid oid) oid).size = (getOrder s oid).size := by
        rw [hgetOoid]
      have hLvol : L.totalVolume = ordersSizeSum s L.orders := hvol (lid, L) hLentry
      have hvt : v1.totalVolume = L.totalVolume + (getOrder s oid).size := by
        rw [hv1, hgetL]
      rw [hv1orders, hvt, hLvol]
      unfold ordersSizeSum at hA ⊢
      simp only [List.map_append, List.sum_append, List.map_cons, List.map_nil,
        List.sum_cons, List.sum_nil, add_zero]
      rw [hb, hA]
    · show p.2.totalVolume = ordersSizeSum (addOrder s lid oid) p.2.orders
      rw [ordersSizeSum_congr s (addOrder s lid oid) p.2.orders
        (fun rid hr => hgetOne rid (fun e => hnotres p hpold (e ▸ hr)))]
      exact hvol p hpold

end OBook
namespace OBook

/-! Pure shape lemmas about `fillOrder` and `isFilled`. -/

theorem isFilled_iff (o : Order) : o.isFilled = true ↔ o.size = 0 := by
  unfold Order.isFilled
  exact ⟨of_decide_eq_true, fun h => decide_eq_true h⟩

theorem fillOrder_fst (pr : ℚ) (aId bId : Nat) (a b : Order) :
    (fillOrder pr aId bId a b).1 =
      { a with size := a.size - (fillOrder pr aId bId a b).2.2.sizeFilled } := by
  unfold fillOrder
  by_cases h : b.size ≤ a.size
  · rw [if_pos h]
  · rw [if_neg h, sub_self]

theorem fillOrder_snd (pr : ℚ) (aId bId : Nat) (a b : Order) :
    (fillOrder pr aId bId a b).2.1 =
      { b with size := b.size - (fillOrder pr aId bId a b).2.2.sizeFilled } := by
  unfold fillOrder
  by_cases h : b.size ≤ a.size
  · rw [if_pos h, sub_self]
  · rw [if_neg h]

theorem fillOrder_price (pr : ℚ) (aId bId : Nat) (a b : Order) :
    (fillOrder pr aId bId a b).2.2.price = pr := by
  unfold fillOrder
  by_cases h : b.size ≤ a.size
  · rw [if_pos h]
  · rw [if_neg h]

theorem fillOrder_resident (pr : ℚ) (aId bId : Nat) (a b : Order)
    (hside : a.bid = !b.bid) :
    residentOf b.bid (fillOrder pr aId bId a b).2.2 = aId := by
  unfold fillOrder residentOf
  cases hb : b.bid with
  | true =>
    rw [hb] at hside
    by_cases h : b.size ≤ a.size
    · rw [if_pos h]
      simp [hside]
    · rw [if_neg h]
      simp [hside]
  | false =>
    rw [hb] at hside
    by_cases h : b.size ≤ a.size
    · rw [if_pos h]
      simp [hside]
    · rw [if_neg h]
      simp [hside]

theorem fillOrder_oid_filled_iff (pr : ℚ) (aId bId : Nat) (a b : Order) :
    ((fillOrder pr aId bId a b).2.1.size = 0 ↔ b.size ≤ a.size) := by
  unfold fillOrder
  by_cases h : b.size ≤ a.size
  · rw [if_pos h]
    simpa using h
  · rw [if_neg h]
    simp only []
    constructor
    · intro hz
      exfalso
      have : a.size < b.size := lt_of_not_le h
      have : b.size - a.size ≠ 0 := sub_ne_zero_of_ne (ne_of_gt this)
      exact this hz
    · intro hle
      exact absurd hle h

theorem fillOrder_rid_filled_of_lt (pr : ℚ) (aId bId : Nat) (a b : Order)
    (h : ¬ b.size ≤ a.size) : (fillOrder pr aId bId a b).1.size = 0 := by
  unfold fillOrder
  rw [if_neg h]

/-- `fillLoop` on a nonempty snapshot, written with the loop body named. -/
theorem fillLoop_cons (s : EngState) (lid oid rid : Nat) (rs : List Nat) :
    fillLoop s lid (rid :: rs) oid =
      if (getOrder (fillStep s lid rid oid).1 oid).isFilled then
        ([(fillStep s lid rid oid).2],
         if (getOrder (fillStep s lid rid oid).1 rid).isFilled then [rid] else [],
         (fillStep s lid rid oid).1)
      else
        ((fillStep s lid rid oid).2 :: (fillLoop (fillStep s lid rid oid).1 lid rs oid).1,
         (if (getOrder (fillStep s lid rid oid).1 rid).isFilled then [rid] else []) ++
           (fillLoop (fillStep s lid rid oid).1 lid rs oid).2.1,
         (fillLoop (fillStep s lid rid oid).1 lid rs oid).2.2) := rfl

/-- A `setOrder` whose written value keeps the side flag, back reference and
timestamp of the overwritten order changes no order's side flag, back reference or
timestamp. -/
theorem setOrder_fields_frame (s : EngState) (w : Nat) (v : Order)
    (hb : v.bid = (getOrder s w).bid) (hl : v.limit = (getOrder s w).limit)
    (ht : v.timestamp = (getOrder s w).timestamp) (k : Nat) :
    (getOrder (setOrder s w v) k).bid = (getOrder s k).bid ∧
    (getOrder (setOrder s w v) k).limit = (getOrder s k).limit ∧
    (getOrder (setOrder s w v) k).timestamp = (getOrder s k).timestamp := by
  by_cases hk : k = w
  · subst hk
    cases hw : lookupA s.heapO k with
    | none =>
      have he : setOrder s k v = { s with heapO := s.heapO } := by
        unfold setOrder
        rw [setA_of_lookupA_none _ _ _ hw]
      rw [he]
      exact ⟨rfl, rfl, rfl⟩
    | some o =>
      have := getOrder_setOrder_self s k v (by rw [hw]; rfl)
      rw [this, hb, hl, ht]
      exact ⟨rfl, rfl, rfl⟩
  · rw [getOrder_setOrder_ne s w v k hk]
    exact ⟨rfl, rfl, rfl⟩

end OBook
namespace OBook

/-- Interior characterisation of one `Fill` loop iteration under well-formedness:
well-formedness and volume consistency are preserved, the level keeps its resident
list and price and loses exactly the filled size from its volume, the two paired
orders lose exactly the filled size, every other object is untouched, and the
emitted Match carries the level's price and (for opposite-side pairings) the
resident's id; the loop's break test reads back the size comparison. -/
theorem fillStep_preserves (s : EngState) (lid rid oid : Nat) (L : Limit)
    (hwf : WF s) (hvol : VolumesOk s)
    (hlid : lookupA s.heapL lid = some L) (hmem : rid ∈ L.orders)
    (holive : (lookupA s.heapO oid).isSome = true)
    (hlim : (getOrder s oid).limit = none) :
    WF (fillStep s lid rid oid).1 ∧ VolumesOk (fillStep s lid rid oid).1 ∧
    (fillStep s lid rid oid).1.book = s.book ∧
    lookupA (fillStep s lid rid oid).1.heapL lid =
      some { L with totalVolume := L.totalVolume - (fillStep s lid rid oid).2.sizeFilled } ∧
    (∀ lid', lid' ≠ lid → getLimit (fillStep s lid rid oid).1 lid' = getLimit s lid') ∧
    (∀ k, k ≠ rid → k ≠ oid → getOrder (fillStep s lid rid oid).1 k = getOrder s k) ∧
    (getOrder (fillStep s lid rid oid).1 rid).size
      = (getOrder s rid).size - (fillStep s lid rid oid).2.sizeFilled ∧
    (getOrder (fillStep s lid rid oid).1 oid).size
      = (getOrder s oid).size - (fillStep s lid rid oid).2.sizeFilled ∧
    (∀ k, (lookupA (fillStep s lid rid oid).1.heapL k).isSome
      = (lookupA s.heapL k).isSome) ∧
    (∀ k, (lookupA (fillStep s lid rid oid).1.heapO k).isSome
      = (lookupA s.heapO k).isSome) ∧
    (∀ k, (getOrder (fillStep s lid rid oid).1 k).bid = (getOrder s k).bid ∧
          (getOrder (fillStep s lid rid oid).1 k).limit = (getOrder s k).limit ∧
          (getOrder (fillStep s lid rid oid).1 k).timestamp
            = (getOrder s k).timestamp) ∧
    (fillStep s lid rid oid).2.price = L.price ∧
    ((getOrder s rid).bid = !(getOrder s oid).bid →
      residentOf (getOrder s oid).bid (fillStep s lid rid oid).2 = rid) ∧
    ((getOrder (fillStep s lid rid oid).1 oid).isFilled = true ↔
      (getOrder s oid).size ≤ (getOrder s rid).size) ∧
    ((getOrder (fillStep s lid rid oid).1 oid).isFilled = false →
      (getOrder (fillStep s lid rid oid).1 rid).isFilled = true) := by
  have hLmem : (lid, L) ∈ s.heapL := mem_of_lookupA _ _ _ hlid
  have hrlive : (lookupA s.heapO rid).isSome = true := hwf.ordLive (lid, L) hLmem rid hmem
  have hrlim : (getOrder s rid).limit = some lid := hwf.backRef (lid, L) hLmem rid hmem
  have hrne : rid ≠ oid := by
    intro e
    rw [e, hlim] at hrlim
    cases hrlim
  have hgetL : getLimit s lid = L := getLimit_of_lookupA s lid L hlid
  have hnotres : ∀ p ∈ s.heapL, oid ∉ p.2.orders := by
    intro p hp hop
    rw [hwf.backRef p hp oid hop] at hlim
    cases hlim
  set a : Order := getOrder s rid with ha
  set b : Order := getOrder s oid with hb
  set r : Order × Order × Match := fillOrder (getLimit s lid).price rid oid a b with hr
  have hl1 : getLimit (setOrder (setOrder s rid r.1) oid r.2.1) lid = L := by
    rw [getLimit_setOrder, getLimit_setOrder, hgetL]
  have hm2 : (fillStep s lid rid oid).2 = r.2.2 := rfl
  have hbody : (fillStep s lid rid oid).1
      = setLimit (setOrder (setOrder s rid r.1) oid r.2.1) lid
          { L with totalVolume := L.totalVolume - r.2.2.sizeFilled } := by
    show setLimit (setOrder (setOrder s rid r.1) oid r.2.1) lid
        { getLimit (setOrder (setOrder s rid r.1) oid r.2.1) lid with
          totalVolume := (getLimit (setOrder (setOrder s rid r.1) oid r.2.1) lid).totalVolume
            - r.2.2.sizeFilled } = _
    rw [hl1]
  set f : ℚ := r.2.2.sizeFilled with hf
  have ha1 : r.1 = { a with size := a.size - f } := fillOrder_fst _ _ _ _ _
  have hb1 : r.2.1 = { b with size := b.size - f } := fillOrder_snd _ _ _ _ _
  have hrlive1 : (lookupA (setOrder s rid r.1).heapO rid).isSome = true := by
    show (lookupA (setA s.heapO rid r.1) rid).isSome = true
    rw [isSome_setA]
    exact hrlive
  have holive1 : (lookupA (setOrder s rid r.1).heapO oid).isSome = true := by
    show (lookupA (setA s.heapO rid r.1) oid).isSome = true
    rw [isSome_setA]
    exact holive
  have hgo_rid : getOrder (fillStep s lid rid oid).1 rid = r.1 := by
    rw [hbody, getOrder_setLimit, getOrder_setOrder_ne _ _ _ _ hrne]
    exact getOrder_setOrder_self s rid r.1 hrlive
  have hgo_oid : getOrder (fillStep s lid rid oid).1 oid = r.2.1 := by
    rw [hbody, getOrder_setLimit]
    exact getOrder_setOrder_self _ oid r.2.1 holive1
  have hgo_ne : ∀ k, k ≠ rid → k ≠ oid →
      getOrder (fillStep s lid rid oid).1 k = getOrder s k := by
    intro k hk1 hk2
    rw [hbody, getOrder_setLimit, getOrder_setOrder_ne _ _ _ _ hk2,
      getOrder_setOrder_ne _ _ _ _ hk1]
  have hLsome : ∀ k, (lookupA (fillStep s lid rid oid).1.heapL k).isSome
      = (lookupA s.heapL k).isSome := by
    intro k
    rw [hbody]
    show (lookupA (setA s.heapL lid _) k).isSome = _
    rw [isSome_setA]
  have hOsome : ∀ k, (lookupA (fillStep s lid rid oid).1.heapO k).isSome
      = (lookupA s.heapO k).isSome := by
    intro k
    rw [hbody]
    show (lookupA (setA (setA s.heapO rid r.1) oid r.2.1) k).isSome = _
    rw [isSome_setA, isSome_setA]
  have hfields : ∀ k, (getOrder (fillStep s lid rid oid).1 k).bid = (getOrder s k).bid ∧
      (getOrder (fillStep s lid rid oid).1 k).limit = (getOrder s k).limit ∧
      (getOrder (fillStep s lid rid oid).1 k).timestamp = (getOrder s k).timestamp := by
    intro k
    rw [hbody, getOrder_setLimit]
    have h1 := setOrder_fields_frame s rid r.1 (by rw [ha1]) (by rw [ha1])
      (by rw [ha1]) k
    have hbo : getOrder (setOrder s rid r.1) oid = b := by
      rw [getOrder_setOrder_ne s rid r.1 oid (Ne.symm hrne)]
    have h2 := setOrder_fields_frame (setOrder s rid r.1) oid r.2.1
      (by rw [hb1, hbo]) (by rw [hb1, hbo]) (by rw [hb1, hbo]) k
    exact ⟨h2.1.trans h1.1, h2.2.1.trans h1.2.1, h2.2.2.trans h1.2.2⟩
  have hLlid : lookupA (fillStep s lid rid oid).1.heapL lid =
      some { L with totalVolume := L.totalVolume - f } := by
    rw [hbody]
    show lookupA (setA (setOrder (setOrder s rid r.1) oid r.2.1).heapL lid _) lid = _
    exact lookupA_setA_some _ _ _ _ hlid
  have hLne : ∀ lid', lid' ≠ lid →
      getLimit (fillStep s lid rid oid).1 lid' = getLimit s lid' := by
    intro lid' hne
    rw [hbody, getLimit_setLimit_ne _ _ _ _ hne, getLimit_setOrder, getLimit_setOrder]
  have hglid : getLimit (fillStep s lid rid oid).1 lid
      = { L with totalVolume := L.totalVolume - f } :=
    getLimit_of_lookupA _ lid _ hLlid
  have hsz_rid : (getOrder (fillStep s lid rid oid).1 rid).size = a.size - f := by
    rw [hgo_rid, ha1]
  have hsz_oid : (getOrder (fillStep s lid rid oid).1 oid).size = b.size - f := by
    rw [hgo_oid, hb1]
  have hbreak : ((getOrder (fillStep s lid rid oid).1 oid).isFilled = true ↔
      b.size ≤ a.size) := by
    rw [isFilled_iff, hgo_oid]
    exact fillOrder_oid_filled_iff _ _ _ _ _
  refine ⟨?_, ?_, by rw [hbody]; rfl, hLlid, hLne, hgo_ne, hsz_rid, hsz_oid,
    hLsome, hOsome, hfields, ?_, ?_, hbreak, ?_⟩
  · constructor
    · rw [hbody]
      show (setA (setA s.heapO rid r.1) oid r.2.1).map Prod.fst |>.Nodup
      rw [setA_keys, setA_keys]
      exact hwf.keysO
    · rw [hbody]
      show (setA s.heapL lid _).map Prod.fst |>.Nodup
      rw [setA_keys]
      exact hwf.keysL
    · intro p hp
      rw [hbody] at hp
      rcases mem_setA _ _ _ _ hp with rfl | ⟨hpold, hpne⟩
      · exact hwf.ordNodup (lid, L) hLmem
      · exact hwf.ordNodup p hpold
    · intro p hp x hx
      rw [show (fillStep s lid rid oid).1.heapL
          = setA s.heapL lid { L with totalVolume := L.totalVolume - f } from
          by rw [hbody]; rfl] at hp
      rw [hOsome]
      rcases mem_setA _ _ _ _ hp with rfl | ⟨hpold, hpne⟩
      · exact hwf.ordLive (lid, L) hLmem x hx
      · exact hwf.ordLive p hpold x hx
    · intro p hp x hx
      rw [show (fillStep s lid rid oid).1.heapL
          = setA s.heapL lid { L with totalVolume := L.totalVolume - f } from
          by rw [hbody]; rfl] at hp
      rw [(hfields x).2.1]
      rcases mem_setA _ _ _ _ hp with rfl | ⟨hpold, hpne⟩
      · exact hwf.backRef (lid, L) hLmem x hx
      · exact hwf.backRef p hpold x hx
    · intro q hq lid'' hq2
      rw [show (fillStep s lid rid oid).1.heapO
          = setA (setA s.heapO rid r.1) oid r.2.1 from by rw [hbody]; rfl] at hq
      rcases mem_setA _ _ _ _ hq with rfl | ⟨hq1, hqne1⟩
      · exfalso
        have : r.2.1.limit = none := by
          rw [hb1]
          exact hlim
        rw [this] at hq2
        cases hq2
      · rcases mem_setA _ _ _ _ hq1 with rfl | ⟨hqold, hqne2⟩
        · have : r.1.limit = some lid := by
            rw [ha1]
            exact hrlim
          rw [this] at hq2
          have he : lid'' = lid := ((Option.some.injEq _ _).mp hq2).symm
          subst he
          refine ⟨by rw [hLsome, hlid]; rfl, ?_⟩
          rw [hglid]
          exact hmem
        · have hold := hwf.refBack q hqold lid'' hq2
          refine ⟨by rw [hLsome]; exact hold.1, ?_⟩
          by_cases he : lid'' = lid
          · subst he
            rw [hglid]
            rw [hgetL] at hold
            exact hold.2
          · rw [hLne lid'' he]
            exact hold.2
    · intro e he
      rw [hLsome]
      rw [show (fillStep s lid rid oid).1.book = s.book from by rw [hbody]; rfl] at he
      exact hwf.mapLiveA e he
    · intro e he
      rw [hLsome]
      rw [show (fillStep s lid rid oid).1.book = s.book from by rw [hbody]; rfl] at he
      exact hwf.mapLiveB e he
  · intro p hp
    rw [show (fillStep s lid rid oid).1.heapL
        = setA s.heapL lid { L with totalVolume := L.totalVolume - f } from
        by rw [hbody]; rfl] at hp
    rcases mem_setA _ _ _ _ hp with rfl | ⟨hpold, hpne⟩
    · show L.totalVolume - f = ordersSizeSum (fillStep s lid rid oid).1 L.orders
      have hnd : L.orders.Nodup := hwf.ordNodup (lid, L) hLmem
      have hs1 : ordersSizeSum (fillStep s lid rid oid).1 L.orders
          = ordersSizeSum (setOrder (setOrder s rid r.1) oid r.2.1) L.orders := by
        rw [hbody]
        exact ordersSizeSum_setLimit _ lid _ L.orders
      have hs2 : ordersSizeSum (setOrder (setOrder s rid r.1) oid r.2.1) L.orders
          = ordersSizeSum (setOrder s rid r.1) L.orders :=
        ordersSizeSum_setOrder_not_mem _ oid r.2.1 L.orders (hnotres (lid, L) hLmem)
      have hs3 : ordersSizeSum (setOrder s rid r.1) L.orders
          = ordersSizeSum s L.orders - (getOrder s rid).size + r.1.size :=
        ordersSizeSum_setOrder_mem s rid r.1 L.orders hnd hmem hrlive
      have hvolL : L.totalVolume = ordersSizeSum s L.orders := hvol (lid, L) hLmem
      rw [hs1, hs2, hs3, ha1, ← ha, ← hvolL]
      show L.totalVolume - f = L.totalVolume - a.size + (a.size - f)
      ring
    · show p.2.totalVolume = ordersSizeSum (fillStep s lid rid oid).1 p.2.orders
      have hrnot : rid ∉ p.2.orders := by
        intro hmem'
        have := resident_unique s hwf lid rid L hlid hmem p hpold hmem'
        rw [this] at hpne
        exact hpne rfl
      have honot : oid ∉ p.2.orders := hnotres p hpold
      rw [ordersSizeSum_congr s (fillStep s lid rid oid).1 p.2.orders
        (fun x hx => hgo_ne x (fun e => hrnot (e ▸ hx)) (fun e => honot (e ▸ hx)))]
      exact hvol p hpold
  · rw [hm2, hr, hgetL]
    exact fillOrder_price _ _ _ _ _
  · intro hside
    rw [hm2, hr]
    exact fillOrder_resident _ _ _ _ _ hside
  · intro hnf
    have hnle : ¬ b.size ≤ a.size := by
      intro hle
      rw [hbreak.mpr hle] at hnf
      cases hnf
    rw [isFilled_iff, hgo_rid]
    exact fillOrder_rid_filled_of_lt _ _ _ _ _ hnle

end OBook
namespace OBook

/-- Run of the `Fill` walk over a duplicate-free sub-snapshot of the level's
residents: well-formedness and volume consistency are preserved, the level keeps
its resident list and price, the book and every other level are untouched, the
collected deferred-delete list is a duplicate-free sub-collection of the snapshot,
every Match carries the level's price, for opposite-side residents the Matches pair
the snapshot's residents in order, and the walk ends with the incoming order filled
or the whole snapshot collected for deletion. -/
theorem fillLoop_run (lid oid : Nat) (rest : List Nat) : ∀ (s : EngState) (L : Limit),
    WF s → VolumesOk s →
    lookupA s.heapL lid = some L →
    (∀ x ∈ rest, x ∈ L.orders) →
    rest.Nodup →
    (lookupA s.heapO oid).isSome = true →
    (getOrder s oid).limit = none →
    WF (fillLoop s lid rest oid).2.2 ∧
    VolumesOk (fillLoop s lid rest oid).2.2 ∧
    (fillLoop s lid rest oid).2.2.book = s.book ∧
    (∃ L', lookupA (fillLoop s lid rest oid).2.2.heapL lid = some L' ∧
       L'.orders = L.orders ∧ L'.price = L.price) ∧
    (∀ lid', lid' ≠ lid →
      getLimit (fillLoop s lid rest oid).2.2 lid' = getLimit s lid') ∧
    (∀ k, (lookupA (fillLoop s lid rest oid).2.2.heapL k).isSome
      = (lookupA s.heapL k).isSome) ∧
    (∀ k, (lookupA (fillLoop s lid rest oid).2.2.heapO k).isSome
      = (lookupA s.heapO k).isSome) ∧
    (∀ k, (getOrder (fillLoop s lid rest oid).2.2 k).bid = (getOrder s k).bid ∧
          (getOrder (fillLoop s lid rest oid).2.2 k).limit = (getOrder s k).limit ∧
          (getOrder (fillLoop s lid rest oid).2.2 k).timestamp
            = (getOrder s k).timestamp) ∧
    (fillLoop s lid rest oid).2.1.Nodup ∧
    (∀ x ∈ (fillLoop s lid rest oid).2.1, x ∈ rest) ∧
    (∀ m ∈ (fillLoop s lid rest oid).1, m.price = L.price) ∧
    ((∀ x ∈ rest, (getOrder s x).bid = !(getOrder s oid).bid) →
      (fillLoop s lid rest oid).1.map (residentOf (getOrder s oid).bid)
        = rest.take (fillLoop s lid rest oid).1.length) ∧
    ((getOrder (fillLoop s lid rest oid).2.2 oid).size = 0 ∨
      (fillLoop s lid rest oid).2.1 = rest) := by
  induction rest with
  | nil =>
    intro s L hwf hvol hlid hsub hnd holive hlim
    refine ⟨hwf, hvol, rfl, ⟨L, hlid, rfl, rfl⟩, fun _ _ => rfl, fun _ => rfl,
      fun _ => rfl, fun _ => ⟨rfl, rfl, rfl⟩, List.nodup_nil, ?_, ?_, ?_, Or.inr rfl⟩
    · intro x hx
      cases hx
    · intro m hm
      cases hm
    · intro _
      rfl
  | cons rid rs ih =>
    intro s L hwf hvol hlid hsub hnd holive hlim
    have hmem : rid ∈ L.orders := hsub rid (List.mem_cons_self rid rs)
    obtain ⟨hw2, hv2, hbk2, hL2, hLf2, hOf2, hszr, hszo, hLs2, hOs2, hfld2, hpr2,
      hres2, hiff2, hrfil2⟩ :=
      fillStep_preserves s lid rid oid L hwf hvol hlid hmem holive hlim
    rw [List.nodup_cons] at hnd
    rw [fillLoop_cons]
    by_cases hbr : (getOrder (fillStep s lid rid oid).1 oid).isFilled = true
    · rw [if_pos hbr]
      refine ⟨hw2, hv2, hbk2, ⟨_, hL2, rfl, rfl⟩, hLf2, hLs2, hOs2, hfld2,
        ?_, ?_, ?_, ?_, ?_⟩
      · show (if (getOrder (fillStep s lid rid oid).1 rid).isFilled then [rid]
          else []).Nodup
        by_cases hdf : (getOrder (fillStep s lid rid oid).1 rid).isFilled = true
        · rw [if_pos hdf]
          exact List.nodup_singleton rid
        · rw [if_neg hdf]
          exact List.nodup_nil
      · intro x hx
        show x ∈ rid :: rs
        by_cases hdf : (getOrder (fillStep s lid rid oid).1 rid).isFilled = true
        · rw [if_pos hdf] at hx
          rw [List.mem_singleton.mp hx]
          exact List.mem_cons_self rid rs
        · rw [if_neg hdf] at hx
          cases hx
      · intro m hm
        rw [List.mem_singleton.mp hm]
        exact hpr2
      · intro hside
        show [(fillStep s lid rid oid).2].map (residentOf (getOrder s oid).bid)
          = (rid :: rs).take 1
        rw [List.map_singleton, hres2 (hside rid (List.mem_cons_self rid rs))]
        rfl
      · left
        have := (isFilled_iff _).mp hbr
        exact this
    · rw [if_neg hbr]
      have hlim2 : (getOrder (fillStep s lid rid oid).1 oid).limit = none := by
        rw [(hfld2 oid).2.1]
        exact hlim
      have holive2 : (lookupA (fillStep s lid rid oid).1.heapO oid).isSome = true := by
        rw [hOs2]
        exact holive

      obtain ⟨ihw, ihv, ihbk, ⟨L', ihL, ihLo, ihLp⟩, ihLf, ihLs, ihOs, ihfld, ihnd,
        ihdsub, ihpr, ihtake, ihlast⟩ :=
        ih (fillStep s lid rid oid).1 { L with totalVolume := L.totalVolume
          - (fillStep s lid rid oid).2.sizeFilled } hw2 hv2 hL2
          (fun x hx => hsub x (List.mem_cons_of_mem rid hx)) hnd.2 holive2 hlim2
      have hridfil : (getOrder (fillStep s lid rid oid).1 rid).isFilled = true :=
        hrfil2 (Bool.not_eq_true _ ▸ hbr)
      refine ⟨ihw, ihv, ihbk.trans hbk2, ⟨L', ihL, ihLo, ihLp⟩, ?_, ?_, ?_, ?_,
        ?_, ?_, ?_, ?_, ?_⟩
      · intro lid' hne
        rw [ihLf lid' hne, hLf2 lid' hne]
      · intro k
        rw [ihLs k, hLs2 k]
      · intro k
        rw [ihOs k, hOs2 k]
      · intro k
        exact ⟨(ihfld k).1.trans (hfld2 k).1, (ihfld k).2.1.trans (hfld2 k).2.1,
          (ihfld k).2.2.trans (hfld2 k).2.2⟩
      · show ((if (getOrder (fillStep s lid rid oid).1 rid).isFilled then [rid]
          else []) ++ (fillLoop (fillStep s lid rid oid).1 lid rs oid).2.1).Nodup
        rw [if_pos hridfil, List.singleton_append, List.nodup_cons]
        refine ⟨fun hmem' => hnd.1 (ihdsub rid hmem'), ihnd⟩
      · intro x hx
        show x ∈ rid :: rs
        rw [if_pos hridfil, List.singleton_append] at hx
        rcases List.mem_cons.mp hx with rfl | hx'
        · exact List.mem_cons_self x rs
        · exact List.mem_cons_of_mem rid (ihdsub x hx')
      · intro m hm
        rcases List.mem_cons.mp hm with rfl | hm'
        · exact hpr2
        · exact ihpr m hm'
      · intro hside
        have hsid2 : ∀ x ∈ rs, (getOrder (fillStep s lid rid oid).1 x).bid
            = !(getOrder (fillStep s lid rid oid).1 oid).bid := by
          intro x hx
          rw [(hfld2 x).1, (hfld2 oid).1]
          exact hside x (List.mem_cons_of_mem rid hx)
        have htk := ihtake hsid2
        rw [(hfld2 oid).1] at htk
        show ((fillStep s lid rid oid).2
            :: (fillLoop (fillStep s lid rid oid).1 lid rs oid).1).map
              (residentOf (getOrder s oid).bid)
          = (rid :: rs).take ((fillLoop (fillStep s lid rid oid).1 lid rs oid).1.length
              + 1)
        rw [List.map_cons, htk, hres2 (hside rid (List.mem_cons_self rid rs)),
          List.take_succ_cons]
      · rcases ihlast with h | h
        · left
          exact h
        · right
          show (if (getOrder (fillStep s lid rid oid).1 rid).isFilled then [rid]
            else []) ++ (fillLoop (fillStep s lid rid oid).1 lid rs oid).2.1
            = rid :: rs
          rw [if_pos hridfil, List.singleton_append, h]

end OBook
namespace OBook

theorem lookupA_eq_some_getLimit (s : EngState) (lid : Nat)
    (h : (lookupA s.heapL lid).isSome = true) :
    lookupA s.heapL lid = some (getLimit s lid) := by
  cases hl : lookupA s.heapL lid with
  | none =>
    rw [hl] at h
    cases h
  | some v =>
    unfold getLimit
    rw [hl]
    rfl

/-- The deferred `DeleteOrder` calls that close `Fill`: folding `deleteOrder` over a
duplicate-free list of residents of the level keeps well-formedness and volume
consistency, leaves the book, the level's price and everything outside the level and
the deleted orders unchanged, and leaves the level's residents a permutation of the
original list minus the deleted ones. -/
theorem foldDelete_preserves (lid : Nat) (dels : List Nat) : ∀ (s : EngState) (L : Limit),
    WF s → VolumesOk s →
    lookupA s.heapL lid = some L →
    dels.Nodup →
    (∀ x ∈ dels, x ∈ L.orders) →
    WF (dels.foldl (fun st rid => deleteOrder st lid rid) s) ∧
    VolumesOk (dels.foldl (fun st rid => deleteOrder st lid rid) s) ∧
    (dels.foldl (fun st rid => deleteOrder st lid rid) s).book = s.book ∧
    (∃ L', lookupA (dels.foldl (fun st rid => deleteOrder st lid rid) s).heapL lid
        = some L' ∧ L'.price = L.price ∧ L'.orders.Perm (L.orders.diff dels)) ∧
    (∀ lid', lid' ≠ lid →
      getLimit (dels.foldl (fun st rid => deleteOrder st lid rid) s) lid'
        = getLimit s lid') ∧
    (∀ k, (lookupA (dels.foldl (fun st rid => deleteOrder st lid rid) s).heapL k).isSome
      = (lookupA s.heapL k).isSome) ∧
    (∀ k, (lookupA (dels.foldl (fun st rid => deleteOrder st lid rid) s).heapO k).isSome
      = (lookupA s.heapO k).isSome) ∧
    (∀ k, k ∉ dels →
      getOrder (dels.foldl (fun st rid => deleteOrder st lid rid) s) k
        = getOrder s k) ∧
    (∀ k, (getOrder (dels.foldl (fun st rid => deleteOrder st lid rid) s) k).bid
        = (getOrder s k).bid ∧
      (getOrder (dels.foldl (fun st rid => deleteOrder st lid rid) s) k).timestamp
        = (getOrder s k).timestamp) := by
  induction dels with
  | nil =>
    intro s L hwf hvol hlid hnd hsub
    refine ⟨hwf, hvol, rfl, ⟨L, hlid, rfl, by rw [List.diff_nil]⟩, fun _ _ => rfl,
      fun _ => rfl, fun _ => rfl, fun _ _ => rfl, fun _ => ⟨rfl, rfl⟩⟩
  | cons d ds ih =>
    intro s L hwf hvol hlid hnd hsub
    rw [List.nodup_cons] at hnd
    have hdmem : d ∈ L.orders := hsub d (List.mem_cons_self d ds)
    obtain ⟨hw1, hv1, hbk1, hperm1, hLf1, hOf1, hOd1, hpr1, hLs1, hOs1⟩ :=
      deleteOrder_preserves s lid d L hwf hvol hlid hdmem
    have hndL : L.orders.Nodup :=
      hwf.ordNodup (lid, L) (mem_of_lookupA _ _ _ hlid)
    have hlid1 : lookupA (deleteOrder s lid d).heapL lid
        = some (getLimit (deleteOrder s lid d) lid) := by
      refine lookupA_eq_some_getLimit _ lid ?_
      rw [hLs1, hlid]
      rfl
    have hsub1 : ∀ x ∈ ds, x ∈ (getLimit (deleteOrder s lid d) lid).orders := by
      intro x hx
      refine (hperm1.mem_iff).mpr ?_
      exact (List.mem_erase_of_ne (fun e => hnd.1 (by rw [← e]; exact hx))).mpr
        (hsub x (List.mem_cons_of_mem d hx))
    obtain ⟨ihw, ihv, ihbk, ⟨L', ihL, ihLp, ihLperm⟩, ihLf, ihLs, ihOs, ihOf, ihfld⟩ :=
      ih (deleteOrder s lid d) (getLimit (deleteOrder s lid d) lid) hw1 hv1 hlid1
        hnd.2 hsub1
    have hfld1 : ∀ k, (getOrder (deleteOrder s lid d) k).bid = (getOrder s k).bid ∧
        (getOrder (deleteOrder s lid d) k).timestamp = (getOrder s k).timestamp := by
      intro k
      by_cases hkd : k = d
      · subst hkd
        rw [hOd1]
        exact ⟨rfl, rfl⟩
      · rw [hOf1 k hkd]
        exact ⟨rfl, rfl⟩
    rw [List.foldl_cons]
    refine ⟨ihw, ihv, ihbk.trans hbk1, ⟨L', ihL, ihLp.trans hpr1, ?_⟩, ?_, ?_, ?_, ?_,
      fun k => ⟨(ihfld k).1.trans (hfld1 k).1, (ihfld k).2.trans (hfld1 k).2⟩⟩
    · refine ihLperm.trans ?_
      rw [List.diff_cons]
      exact List.Perm.diff_right ds hperm1
    · intro lid' hne
      rw [ihLf lid' hne, hLf1 lid' hne]
    · intro k
      rw [ihLs k, hLs1 k]
    · intro k
      rw [ihOs k, hOs1 k]
    · intro k hk
      have hk1 : k ∉ ds := fun h => hk (List.mem_cons_of_mem d h)
      have hk2 : k ≠ d := fun e => hk (e ▸ List.mem_cons_self d ds)
      rw [ihOf k hk1, hOf1 k hk2]

end OBook
namespace OBook

/-- `Fill` of a level against a live incoming order with no back reference (the
market-order case): well-formedness and volume consistency are preserved, the book
is untouched, no object is created or destroyed, no side flag or level price
changes, the incoming order keeps its nil back reference, other levels are
untouched, and the level's residents end up a sub-collection of what they were. -/
theorem fill_preserves (s : EngState) (lid oid : Nat)
    (hwf : WF s) (hvol : VolumesOk s)
    (holive : (lookupA s.heapO oid).isSome = true)
    (hlim : (getOrder s oid).limit = none) :
    WF (fill s lid oid).2 ∧ VolumesOk (fill s lid oid).2 ∧
    (fill s lid oid).2.book = s.book ∧
    (∀ k, (lookupA (fill s lid oid).2.heapL k).isSome = (lookupA s.heapL k).isSome) ∧
    (∀ k, (lookupA (fill s lid oid).2.heapO k).isSome = (lookupA s.heapO k).isSome) ∧
    (∀ k, (getOrder (fill s lid oid).2 k).bid = (getOrder s k).bid) ∧
    (getOrder (fill s lid oid).2 oid).limit = none ∧
    (∀ k, priceOf (fill s lid oid).2 k = priceOf s k) ∧
    (∀ lid', lid' ≠ lid → getLimit (fill s lid oid).2 lid' = getLimit s lid') ∧
    (∀ x ∈ (getLimit (fill s lid oid).2 lid).orders,
      x ∈ (getLimit s lid).orders) := by
  cases hlidc : lookupA s.heapL lid with
  | none =>
    have h0 : (getLimit s lid).orders = ([] : List Nat) := by
      unfold getLimit
      rw [hlidc]
      rfl
    have hfe : fill s lid oid = (([] : List Match), s) := by
      unfold fill
      rw [h0]
      rfl
    rw [hfe]
    exact ⟨hwf, hvol, rfl, fun _ => rfl, fun _ => rfl, fun _ => rfl, hlim,
      fun _ => rfl, fun _ _ => rfl, fun x hx => hx⟩
  | some L =>
    have horders : (getLimit s lid).orders = L.orders := by
      rw [getLimit_of_lookupA s lid L hlidc]
    have hndL : L.orders.Nodup := hwf.ordNodup (lid, L) (mem_of_lookupA _ _ _ hlidc)
    obtain ⟨rw1, rv1, rbk1, ⟨L1, rL1, rL1o, rL1p⟩, rLf1, rLs1, rOs1, rfld1, rdnd1,
      rdsub1, rpr1, rtake1, rlast1⟩ :=
      fillLoop_run lid oid (getLimit s lid).orders s L hwf hvol hlidc
        (fun x hx => horders ▸ hx) (horders ▸ hndL) holive hlim
    have hoidnot : ∀ x ∈ (fillLoop s lid (getLimit s lid).orders oid).2.1, x ≠ oid := by
      intro x hx he
      have hxo : x ∈ L.orders := horders ▸ rdsub1 x hx
      have := hwf.backRef (lid, L) (mem_of_lookupA _ _ _ hlidc) x hxo
      rw [he, hlim] at this
      cases this
    obtain ⟨fw, fv, fbk, ⟨L', fL, fLp, fLperm⟩, fLf, fLs, fOs, fOf, ffld⟩ :=
      foldDelete_preserves lid (fillLoop s lid (getLimit s lid).orders oid).2.1
        (fillLoop s lid (getLimit s lid).orders oid).2.2 L1 rw1 rv1 rL1 rdnd1
        (fun x hx => rL1o ▸ (horders ▸ rdsub1 x hx))
    have hfe : (fill s lid oid).2 =
        (fillLoop s lid (getLimit s lid).orders oid).2.1.foldl
          (fun st rid => deleteOrder st lid rid)
          (fillLoop s lid (getLimit s lid).orders oid).2.2 := rfl
    rw [hfe]
    refine ⟨fw, fv, fbk.trans rbk1, ?_, ?_, ?_, ?_, ?_, ?_, ?_⟩
    · intro k
      rw [fLs k, rLs1 k]
    · intro k
      rw [fOs k, rOs1 k]
    · intro k
      rw [(ffld k).1, (rfld1 k).1]
    · have hnd : oid ∉ (fillLoop s lid (getLimit s lid).orders oid).2.1 :=
        fun h => (hoidnot oid h) rfl
      rw [fOf oid hnd, (rfld1 oid).2.1]
      exact hlim
    · intro k
      by_cases hk : k = lid
      · subst hk
        unfold priceOf
        rw [getLimit_of_lookupA _ k L' fL, getLimit_of_lookupA s k L hlidc,
          fLp, rL1p]
      · unfold priceOf
        rw [fLf k hk, rLf1 k hk]
    · intro lid' hne
      rw [fLf lid' hne, rLf1 lid' hne]
    · intro x hx
      rw [getLimit_of_lookupA _ lid L' fL] at hx
      have h1 : x ∈ L1.orders.diff (fillLoop s lid (getLimit s lid).orders oid).2.1 :=
        fLperm.subset hx
      have h2 : x ∈ L1.orders := List.diff_subset _ _ h1
      rw [rL1o] at h2
      rw [horders]
      exact h2

end OBook
namespace OBook

theorem mem_eraseMap (m : List (ℚ × Nat)) (k : ℚ) (e : ℚ × Nat)
    (h : e ∈ eraseMap m k) : e ∈ m := by
  unfold eraseMap at h
  exact List.mem_of_mem_filter h

theorem volumesOk_of_heaps_eq (s s' : EngState) (hL : s'.heapL = s.heapL)
    (hO : s'.heapO = s.heapO) (h : VolumesOk s) : VolumesOk s' := by
  intro p hp
  rw [hL] at hp
  rw [ordersSizeSum_congr s s' p.2.orders
    (fun rid _ => getOrder_congr_heapO s s' hO rid)]
  exact h p hp

theorem wf_of_heaps_books (s s' : EngState) (hL : s'.heapL = s.heapL)
    (hO : s'.heapO = s.heapO)
    (hA : ∀ e ∈ s'.book.askLimits, e ∈ s.book.askLimits)
    (hB : ∀ e ∈ s'.book.bidLimits, e ∈ s.book.bidLimits)
    (hwf : WF s) : WF s' := by
  constructor
  · rw [hO]
    exact hwf.keysO
  · rw [hL]
    exact hwf.keysL
  · intro p hp
    rw [hL] at hp
    exact hwf.ordNodup p hp
  · intro p hp x hx
    rw [hL] at hp
    rw [hO]
    exact hwf.ordLive p hp x hx
  · intro p hp x hx
    rw [hL] at hp
    rw [getOrder_congr_heapO s s' hO]
    exact hwf.backRef p hp x hx
  · intro q hq lid hq2
    rw [hO] at hq
    have hold := hwf.refBack q hq lid hq2
    rw [hL, getLimit_congr_heapL s s' hL]
    exact hold
  · intro e he
    rw [hL]
    exact hwf.mapLiveA e (hA e he)
  · intro e he
    rw [hL]
    exact hwf.mapLiveB e (hB e he)

/-- `clearLimit` only rewrites the book: well-formedness and volume consistency
survive, and the heaps are untouched. -/
theorem clearLimit_preserves (s : EngState) (b : Bool) (lid : Nat)
    (hwf : WF s) (hvol : VolumesOk s) :
    WF (clearLimit s b lid) ∧ VolumesOk (clearLimit s b lid) ∧
    (clearLimit s b lid).heapL = s.heapL ∧ (clearLimit s b lid).heapO = s.heapO := by
  have hL := clearLimit_heapL s b lid
  have hO := clearLimit_heapO s b lid
  refine ⟨?_, volumesOk_of_heaps_eq s _ hL hO hvol, hL, hO⟩
  refine wf_of_heaps_books s _ hL hO ?_ ?_ hwf
  · intro e he
    cases b with
    | true => exact he
    | false => exact mem_eraseMap _ _ e he
  · intro e he
    cases b with
    | true => exact mem_eraseMap _ _ e he
    | false => exact he

end OBook
namespace OBook

theorem lookupMap_mem (m : List (ℚ × Nat)) (k : ℚ) (v : Nat)
    (h : lookupMap m k = some v) : (k, v) ∈ m := by
  unfold lookupMap at h
  rw [Option.map_eq_some'] at h
  obtain ⟨p, hp, hv⟩ := h
  have hmem := List.mem_of_find?_eq_some hp
  have hkey := List.find?_some hp
  simp only [decide_eq_true_eq] at hkey
  have : (k, v) = p := by
    rw [← hkey, ← hv]
  rw [this]
  exact hmem

/-- `marketLoop` on a nonempty snapshot, with the loop body named. -/
theorem marketLoop_cons (s : EngState) (lid : Nat) (rest : List Nat) (oid : Nat) :
    marketLoop s (lid :: rest) oid =
      ((fill s lid oid).1 ++
        (marketLoop (if (getLimit (fill s lid oid).2 lid).orders = []
          then clearLimit (fill s lid oid).2 true lid
          else (fill s lid oid).2) rest oid).1,
       (marketLoop (if (getLimit (fill s lid oid).2 lid).orders = []
          then clearLimit (fill s lid oid).2 true lid
          else (fill s lid oid).2) rest oid).2) := rfl

/-- The whole market-order loop preserves well-formedness and volume consistency,
for a live incoming order with no back reference. -/
theorem marketLoop_preserves (oid : Nat) (snap : List Nat) : ∀ (s : EngState),
    WF s → VolumesOk s →
    (lookupA s.heapO oid).isSome = true →
    (getOrder s oid).limit = none →
    WF (marketLoop s snap oid).2 ∧ VolumesOk (marketLoop s snap oid).2 := by
  induction snap with
  | nil =>
    intro s hwf hvol _ _
    exact ⟨hwf, hvol⟩
  | cons lid rest ih =>
    intro s hwf hvol holive hlim
    obtain ⟨fw, fv, fbk, fLs, fOs, ffl, flim, fpr, fLf, fsub⟩ :=
      fill_preserves s lid oid hwf hvol holive hlim
    have folive : (lookupA (fill s lid oid).2.heapO oid).isSome = true := by
      rw [fOs oid]
      exact holive
    rw [marketLoop_cons]
    by_cases hemp : (getLimit (fill s lid oid).2 lid).orders = []
    · rw [if_pos hemp]
      obtain ⟨cw, cv, chL, chO⟩ := clearLimit_preserves (fill s lid oid).2 true lid fw fv
      refine ih (clearLimit (fill s lid oid).2 true lid) cw cv ?_ ?_
      · rw [show (clearLimit (fill s lid oid).2 true lid).heapO
            = (fill s lid oid).2.heapO from chO]
        exact folive
      · rw [getOrder_congr_heapO (fill s lid oid).2 _ chO]
        exact flim
    · rw [if_neg hemp]
      exact ih (fill s lid oid).2 fw fv folive flim

/-- `PlaceMarketOrder` that returns (rather than aborts) preserves well-formedness
and volume consistency, for a live incoming order with no back reference. -/
theorem placeMarketOrder_ok_preserves (s : EngState) (oid : Nat) (ms : List Match)
    (s' : EngState) (hwf : WF s) (hvol : VolumesOk s)
    (holive : (lookupA s.heapO oid).isSome = true)
    (hlim : (getOrder s oid).limit = none)
    (hok : placeMarketOrder s oid = .ok (ms, s')) :
    WF s' ∧ VolumesOk s' := by
  simp only [placeMarketOrder] at hok
  cases hbv : (getOrder s oid).bid with
  | true =>
    rw [hbv, if_pos rfl] at hok
    by_cases hv : askTotalVolume s < (getOrder s oid).size
    · rw [if_pos hv] at hok
      cases hok
    · rw [if_neg hv] at hok
      have hinj : marketLoop { s with book := { s.book with asks := sortedAsks s } }
          (sortedAsks s) oid = (ms, s') := by
        injection hok
      have hs' : s' = (marketLoop { s with book := { s.book with asks := sortedAsks s } }
          (sortedAsks s) oid).2 := by
        rw [hinj]
      have hw1 : WF { s with book := { s.book with asks := sortedAsks s } } :=
        wf_of_heaps_books s _ rfl rfl (fun e he => he) (fun e he => he) hwf
      have hv1 : VolumesOk { s with book := { s.book with asks := sortedAsks s } } :=
        volumesOk_of_heaps_eq s _ rfl rfl hvol
      rw [hs']
      exact marketLoop_preserves oid (sortedAsks s) _ hw1 hv1 holive hlim
  | false =>
    rw [hbv, if_neg (by simp)] at hok
    by_cases hv : bidTotalVolume s < (getOrder s oid).size
    · rw [if_pos hv] at hok
      cases hok
    · rw [if_neg hv] at hok
      have hinj : marketLoop { s with book := { s.book with bids := sortedBids s } }
          (sortedBids s) oid = (ms, s') := by
        injection hok
      have hs' : s' = (marketLoop { s with book := { s.book with bids := sortedBids s } }
          (sortedBids s) oid).2 := by
        rw [hinj]
      have hw1 : WF { s with book := { s.book with bids := sortedBids s } } :=
        wf_of_heaps_books s _ rfl rfl (fun e he => he) (fun e he => he) hwf
      have hv1 : VolumesOk { s with book := { s.book with bids := sortedBids s } } :=
        volumesOk_of_heaps_eq s _ rfl rfl hvol
      rw [hs']
      exact marketLoop_preserves oid (sortedBids s) _ hw1 hv1 holive hlim

end OBook
namespace OBook

theorem freshKey_not_key {α : Type} (l : List (Nat × α)) :
    freshKey l ∉ l.map Prod.fst := by
  intro h
  rw [List.mem_map] at h
  obtain ⟨p, hp, he⟩ := h
  have := freshKey_gt l p hp
  omega

/-- Allocating a fresh order object with a nil back reference (Go `NewOrder`)
preserves well-formedness and volume consistency, and the new pointer reads back
the new object. -/
theorem allocOrder_preserves (s : EngState) (o : Order) (holim : o.limit = none)
    (hwf : WF s) (hvol : VolumesOk s) :
    WF { s with heapO := s.heapO ++ [(freshKey s.heapO, o)] } ∧
    VolumesOk { s with heapO := s.heapO ++ [(freshKey s.heapO, o)] } ∧
    (lookupA (s.heapO ++ [(freshKey s.heapO, o)]) (freshKey s.heapO)).isSome = true ∧
    getOrder { s with heapO := s.heapO ++ [(freshKey s.heapO, o)] }
      (freshKey s.heapO) = o := by
  set oid := freshKey s.heapO with hoid
  set s1 : EngState := { s with heapO := s.heapO ++ [(oid, o)] } with hs1
  have hfresh : lookupA s.heapO oid = none := lookupA_freshKey s.heapO
  have hnew : lookupA s1.heapO oid = some o := lookupA_append_single _ _ _ hfresh
  have hframe : ∀ k, (lookupA s.heapO k).isSome = true →
      lookupA s1.heapO k = lookupA s.heapO k := by
    intro k hk
    cases hkl : lookupA s.heapO k with
    | none =>
      rw [hkl] at hk
      cases hk
    | some w =>
      exact lookupA_append_of_some _ _ _ _ hkl
  have hgetframe : ∀ k, (lookupA s.heapO k).isSome = true →
      getOrder s1 k = getOrder s k := by
    intro k hk
    unfold getOrder
    rw [hframe k hk]
  refine ⟨?_, ?_, by rw [hnew]; rfl, by unfold getOrder; rw [hnew]; rfl⟩
  · constructor
    · show ((s.heapO ++ [(oid, o)]).map Prod.fst).Nodup
      rw [List.map_append]
      refine List.Nodup.append hwf.keysO (List.nodup_singleton oid) ?_
      intro x hx hx2
      simp only [List.map_cons, List.map_nil, List.mem_singleton] at hx2
      subst hx2
      exact freshKey_not_key s.heapO hx
    · exact hwf.keysL
    · exact hwf.ordNodup
    · intro p hp x hx
      rw [hframe x (hwf.ordLive p hp x hx)]
      exact hwf.ordLive p hp x hx
    · intro p hp x hx
      rw [hgetframe x (hwf.ordLive p hp x hx)]
      exact hwf.backRef p hp x hx
    · intro q hq lid hq2
      rcases List.mem_append.mp hq with hqo | hqn
      · exact hwf.refBack q hqo lid hq2
      · rw [List.mem_singleton] at hqn
        subst hqn
        rw [holim] at hq2
        cases hq2
    · exact hwf.mapLiveA
    · exact hwf.mapLiveB
  · intro p hp
    rw [ordersSizeSum_congr s s1 p.2.orders
      (fun x hx => hgetframe x (hwf.ordLive p hp x hx))]
    exact hvol p hp

/-- Allocating a fresh empty level (Go `NewLimit`) preserves well-formedness and
volume consistency, and the new pointer reads back the new level. -/
theorem allocLimit_preserves (s : EngState) (price : ℚ)
    (hwf : WF s) (hvol : VolumesOk s) :
    WF { s with heapL := s.heapL ++ [(freshKey s.heapL, NewLimit price)] } ∧
    VolumesOk { s with heapL := s.heapL ++ [(freshKey s.heapL, NewLimit price)] } ∧
    lookupA (s.heapL ++ [(freshKey s.heapL, NewLimit price)]) (freshKey s.heapL)
      = some (NewLimit price) := by
  set lid := freshKey s.heapL with hlid
  set s1 : EngState := { s with heapL := s.heapL ++ [(lid, NewLimit price)] } with hs1
  have hfresh : lookupA s.heapL lid = none := lookupA_freshKey s.heapL
  have hnew : lookupA s1.heapL lid = some (NewLimit price) :=
    lookupA_append_single _ _ _ hfresh
  have hframe : ∀ k, (lookupA s.heapL k).isSome = true →
      lookupA s1.heapL k = lookupA s.heapL k := by
    intro k hk
    cases hkl : lookupA s.heapL k with
    | none =>
      rw [hkl] at hk
      cases hk
    | some w =>
      exact lookupA_append_of_some _ _ _ _ hkl
  refine ⟨?_, ?_, hnew⟩
  · constructor
    · exact hwf.keysO
    · show ((s.heapL ++ [(lid, NewLimit price)]).map Prod.fst).Nodup
      rw [List.map_append]
      refine List.Nodup.append hwf.keysL (List.nodup_singleton lid) ?_
      intro x hx hx2
      simp only [List.map_cons, List.map_nil, List.mem_singleton] at hx2
      subst hx2
      exact freshKey_not_key s.heapL hx
    · intro p hp
      rcases List.mem_append.mp hp with hpo | hpn
      · exact hwf.ordNodup p hpo
      · rw [List.mem_singleton] at hpn
        subst hpn
        exact List.nodup_nil
    · intro p hp x hx
      rcases List.mem_append.mp hp with hpo | hpn
      · exact hwf.ordLive p hpo x hx
      · rw [List.mem_singleton] at hpn
        subst hpn
        cases hx
    · intro p hp x hx
      rcases List.mem_append.mp hp with hpo | hpn
      · exact hwf.backRef p hpo x hx
      · rw [List.mem_singleton] at hpn
        subst hpn
        cases hx
    · intro q hq lid'' hq2
      have hold := hwf.refBack q hq lid'' hq2
      refine ⟨by rw [hframe lid'' hold.1]; exact hold.1, ?_⟩
      have : getLimit s1 lid'' = getLimit s lid'' := by
        unfold getLimit
        rw [hframe lid'' hold.1]
      rw [this]
      exact hold.2
    · intro e he
      rw [hframe e.2 (hwf.mapLiveA e he)]
      exact hwf.mapLiveA e he
    · intro e he
      rw [hframe e.2 (hwf.mapLiveB e he)]
      exact hwf.mapLiveB e he
  · intro p hp
    rcases List.mem_append.mp hp with hpo | hpn
    · have := hvol p hpo
      rw [this]
      rfl
    · rw [List.mem_singleton] at hpn
      subst hpn
      rfl

end OBook
namespace OBook

/-- `PlaceLimitOrder` of a live order with no back reference preserves
well-formedness and volume consistency, on the map-hit path through `AddOrder` and
on the map-miss path through the fresh-level registration. -/
theorem placeLimitOrder_preserves (s : EngState) (price : ℚ) (oid : Nat)
    (hwf : WF s) (hvol : VolumesOk s)
    (holive : (lookupA s.heapO oid).isSome = true)
    (hlim : (getOrder s oid).limit = none) :
    WF (placeLimitOrder s price oid) ∧ VolumesOk (placeLimitOrder s price oid) := by
  cases hex : (if (getOrder s oid).bid then lookupMap s.book.bidLimits price
      else lookupMap s.book.askLimits price) with
  | some lid =>
    have hres : placeLimitOrder s price oid = addOrder s lid oid := by
      simp only [placeLimitOrder, hex]
    have hlive : (lookupA s.heapL lid).isSome = true := by
      cases hbv : (getOrder s oid).bid with
      | true =>
        rw [hbv, if_pos rfl] at hex
        exact hwf.mapLiveB (price, lid) (lookupMap_mem _ _ _ hex)
      | false =>
        rw [hbv, if_neg (by simp)] at hex
        exact hwf.mapLiveA (price, lid) (lookupMap_mem _ _ _ hex)
    obtain ⟨aw, av, -⟩ := addOrder_preserves s lid oid (getLimit s lid) hwf hvol
      (lookupA_eq_some_getLimit s lid hlive) holive hlim
    rw [hres]
    exact ⟨aw, av⟩
  | none =>
    obtain ⟨lw, lv, lnew⟩ := allocLimit_preserves s price hwf hvol
    set lid := freshKey s.heapL with hlid
    set s1 : EngState := { s with heapL := s.heapL ++ [(lid, NewLimit price)] }
      with hs1
    have holive1 : (lookupA s1.heapO oid).isSome = true := holive
    have hlim1 : (getOrder s1 oid).limit = none := hlim
    cases hbv : (getOrder s oid).bid with
    | true =>
      have hex' : lookupMap s.book.bidLimits price = none := by
        rw [hbv, if_pos rfl] at hex
        exact hex
      have hres : placeLimitOrder s price oid =
          addOrder { s1 with book := { s1.book with
            bids := s1.book.bids ++ [lid]
            bidLimits := insertMap s1.book.bidLimits price lid } } lid oid := by
        simp only [placeLimitOrder, hbv, eq_self_iff_true, if_true, hex']
      set s2 : EngState := { s1 with book := { s1.book with
        bids := s1.book.bids ++ [lid]
        bidLimits := insertMap s1.book.bidLimits price lid } } with hs2
      have hw2 : WF s2 := by
        constructor
        · exact lw.keysO
        · exact lw.keysL
        · exact lw.ordNodup
        · exact lw.ordLive
        · exact lw.backRef
        · exact lw.refBack
        · exact lw.mapLiveA
        · intro e he
          rcases List.mem_append.mp he with hold | hnew
          · exact lw.mapLiveB e hold
          · rw [List.mem_singleton] at hnew
            subst hnew
            rw [lnew]
            rfl
      have hv2 : VolumesOk s2 := lv
      obtain ⟨aw, av, -⟩ := addOrder_preserves s2 lid oid (NewLimit price) hw2 hv2
        lnew holive1 hlim1
      rw [hres]
      exact ⟨aw, av⟩
    | false =>
      have hex' : lookupMap s.book.askLimits price = none := by
        rw [hbv, if_neg (by simp)] at hex
        exact hex
      have hres : placeLimitOrder s price oid =
          addOrder { s1 with book := { s1.book with
            asks := s1.book.asks ++ [lid]
            askLimits := insertMap s1.book.askLimits price lid } } lid oid := by
        simp only [placeLimitOrder, hbv, Bool.false_eq_true, if_false, hex']
      set s2 : EngState := { s1 with book := { s1.book with
        asks := s1.book.asks ++ [lid]
        askLimits := insertMap s1.book.askLimits price lid } } with hs2
      have hw2 : WF s2 := by
        constructor
        · exact lw.keysO
        · exact lw.keysL
        · exact lw.ordNodup
        · exact lw.ordLive
        · exact lw.backRef
        · exact lw.refBack
        · intro e he
          rcases List.mem_append.mp he with hold | hnew
          · exact lw.mapLiveA e hold
          · rw [List.mem_singleton] at hnew
            subst hnew
            rw [lnew]
            rfl
        · exact lw.mapLiveB
      have hv2 : VolumesOk s2 := lv
      obtain ⟨aw, av, -⟩ := addOrder_preserves s2 lid oid (NewLimit price) hw2 hv2
        lnew holive1 hlim1
      rw [hres]
      exact ⟨aw, av⟩

/-- `CancelOrder` that returns (rather than nil-dereferencing) preserves
well-formedness and volume consistency. -/
theorem cancelOrder_ok_preserves (s : EngState) (oid : Nat) (s' : EngState)
    (hwf : WF s) (hvol : VolumesOk s)
    (hok : cancelOrder s oid = .ok s') : WF s' ∧ VolumesOk s' := by
  unfold cancelOrder at hok
  cases hlimc : (getOrder s oid).limit with
  | none =>
    rw [hlimc] at hok
    cases hok
  | some lid =>
    rw [hlimc] at hok
    have hs' : s' = deleteOrder s lid oid := by
      injection hok with h
      exact h.symm
    cases hoc : lookupA s.heapO oid with
    | none =>
      exfalso
      have hdef : getOrder s oid
          = { size := 0, bid := false, limit := none, timestamp := 0 } := by
        unfold getOrder
        rw [hoc]
        rfl
      rw [hdef] at hlimc
      cases hlimc
    | some o =>
      have hgo : getOrder s oid = o := getOrder_of_lookupA s oid o hoc
      have holim : o.limit = some lid := by
        rw [← hgo]
        exact hlimc
      obtain ⟨hlive, hmem⟩ := hwf.refBack (oid, o) (mem_of_lookupA _ _ _ hoc) lid holim
      obtain ⟨dw, dv, -⟩ := deleteOrder_preserves s lid oid (getLimit s lid) hwf hvol
        (lookupA_eq_some_getLimit s lid hlive) hmem
      rw [hs']
      exact ⟨dw, dv⟩

/-- Allocation plus `PlaceLimitOrder` (the public limit-order entry point)
preserves well-formedness and volume consistency. -/
theorem placeLimitFresh_preserves (s : EngState) (price : ℚ) (isBid : Bool)
    (sz : ℚ) (ts : Int) (hwf : WF s) (hvol : VolumesOk s) :
    WF (placeLimitFresh s price isBid sz ts) ∧
    VolumesOk (placeLimitFresh s price isBid sz ts) := by
  obtain ⟨aw, av, alive, aget⟩ := allocOrder_preserves s
    { size := sz, bid := isBid, limit := none, timestamp := ts } rfl hwf hvol
  have hres : placeLimitFresh s price isBid sz ts =
      placeLimitOrder { s with heapO := s.heapO
        ++ [(freshKey s.heapO,
          { size := sz, bid := isBid, limit := none, timestamp := ts })] }
        price (freshKey s.heapO) := rfl
  rw [hres]
  exact placeLimitOrder_preserves _ price (freshKey s.heapO) aw av alive
    (by rw [aget])

/-- Allocation plus `PlaceMarketOrder` (the public market-order entry point),
when it returns, preserves well-formedness and volume consistency. -/
theorem placeMarketFresh_preserves (s : EngState) (isBid : Bool) (sz : ℚ) (ts : Int)
    (ms : List Match) (s' : EngState) (hwf : WF s) (hvol : VolumesOk s)
    (hok : placeMarketFresh s isBid sz ts = .ok (ms, s')) :
    WF s' ∧ VolumesOk s' := by
  obtain ⟨aw, av, alive, aget⟩ := allocOrder_preserves s
    { size := sz, bid := isBid, limit := none, timestamp := ts } rfl hwf hvol
  have hres : placeMarketFresh s isBid sz ts =
      placeMarketOrder { s with heapO := s.heapO
        ++ [(freshKey s.heapO,
          { size := sz, bid := isBid, limit := none, timestamp := ts })] }
        (freshKey s.heapO) := rfl
  rw [hres] at hok
  exact placeMarketOrder_ok_preserves _ (freshKey s.heapO) ms s' aw av alive
    (by rw [aget]) hok

/-- Every reachable state is well-formed and volume-consistent. -/
theorem reachable_wf (s : EngState) (h : Reachable s) : WF s ∧ VolumesOk s := by
  induction h with
  | empty =>
    constructor
    · constructor
      · exact List.nodup_nil
      · exact List.nodup_nil
      · intro p hp
        cases hp
      · intro p hp
        cases hp
      · intro p hp
        cases hp
      · intro q hq
        cases hq
      · intro e he
        cases he
      · intro e he
        cases he
    · intro p hp
      cases hp
  | placeLimit price isBid ts hsz hs ih =>
    exact placeLimitFresh_preserves _ price isBid _ ts ih.1 ih.2
  | placeMarket hsz hs hok ih =>
    exact placeMarketFresh_preserves _ _ _ _ _ _ ih.1 ih.2 hok
  | cancel hs hok ih =>
    exact cancelOrder_ok_preserves _ _ _ ih.1 ih.2 hok

end OBook
namespace OBook

/-- C4: in every state reachable from the empty book by the public operations,
every price level's `TotalVolume` equals the sum of the sizes of its resident
orders, and each side's book-wide total volume (`AskTotalVolume`,
`BidTotalVolume`) equals the sum of `TotalVolume` over the levels of that side's
slice; every constituent operation preserves this. -/
theorem c4_volume_conservation (s : EngState) (h : Reachable s) :
    VolumesOk s ∧
    askTotalVolume s
      = ((s.book.asks.map fun lid => (getLimit s lid).totalVolume).sum) ∧
    bidTotalVolume s
      = ((s.book.bids.map fun lid => (getLimit s lid).totalVolume).sum) := by
  refine ⟨(reachable_wf s h).2, ?_, ?_⟩
  · unfold askTotalVolume
    rw [foldl_add_eq_sum, zero_add]
  · unfold bidTotalVolume
    rw [foldl_add_eq_sum, zero_add]

/-- C4 witness: the invariant instantiated on the post-state of the four-step
trace `c3run` (two resting sides, a partially filled market bid, an emptied ask
level), with the reachability chain discharged constructively. -/
theorem c4_volume_conservation_witness :
    VolumesOk c3res.2 ∧
    askTotalVolume c3res.2
      = ((c3res.2.book.asks.map fun lid => (getLimit c3res.2 lid).totalVolume).sum) ∧
    bidTotalVolume c3res.2
      = ((c3res.2.book.bids.map fun lid => (getLimit c3res.2 lid).totalVolume).sum) := by
  have h1 : Reachable c3s1 := Reachable.placeLimit 100 true 0 (by norm_num)
    Reachable.empty
  have h2 : Reachable c3s2 := Reachable.placeLimit 100 false 1 (by norm_num) h1
  have h3 : Reachable c3s3 := Reachable.placeLimit 101 false 2 (by norm_num) h2
  have h4 : Reachable c3res.2 :=
    @Reachable.placeMarket c3s3 c3res.2 true 7 3 c3res.1 (by norm_num) h3 (by decide)
  exact c4_volume_conservation c3res.2 h4

end OBook
namespace OBook

theorem diff_self_nil (l : List Nat) (hnd : l.Nodup) : l.diff l = [] := by
  rw [List.eq_nil_iff_forall_not_mem]
  intro x hx
  have h := (hnd.mem_diff_iff).mp hx
  exact h.2 h.1

/-- One `Fill` call of the market loop satisfies the per-level price-time
contract, for a well-formed state and opposite-side residents. -/
theorem fill_priceTime (s : EngState) (lid oid : Nat)
    (hwf : WF s) (hvol : VolumesOk s)
    (holive : (lookupA s.heapO oid).isSome = true)
    (hlim : (getOrder s oid).limit = none)
    (hside : ∀ x ∈ (getLimit s lid).orders,
      (getOrder s x).bid = !(getOrder s oid).bid) :
    FillStepOk s lid oid := by
  cases hlidc : lookupA s.heapL lid with
  | none =>
    have h0 : (getLimit s lid).orders = ([] : List Nat) := by
      unfold getLimit
      rw [hlidc]
      rfl
    have hfe : fill s lid oid = (([] : List Match), s) := by
      unfold fill
      rw [h0]
      rfl
    refine ⟨?_, ?_, ?_, ?_⟩
    · intro m hm
      rw [hfe] at hm
      cases hm
    · rw [hfe, h0]
      rfl
    · left
      rw [hfe]
      exact h0
    · intro _
      rw [hfe]
      exact List.sorted_nil
  | some L =>
    have horders : (getLimit s lid).orders = L.orders := by
      rw [getLimit_of_lookupA s lid L hlidc]
    have hndL : L.orders.Nodup := hwf.ordNodup (lid, L) (mem_of_lookupA _ _ _ hlidc)
    obtain ⟨rw1, rv1, rbk1, ⟨L1, rL1, rL1o, rL1p⟩, rLf1, rLs1, rOs1, rfld1, rdnd1,
      rdsub1, rpr1, rtake1, rlast1⟩ :=
      fillLoop_run lid oid (getLimit s lid).orders s L hwf hvol hlidc
        (fun x hx => horders ▸ hx) (horders ▸ hndL) holive hlim
    have hoidnot : ∀ x ∈ (fillLoop s lid (getLimit s lid).orders oid).2.1,
        x ≠ oid := by
      intro x hx he
      have hxo : x ∈ L.orders := horders ▸ rdsub1 x hx
      have := hwf.backRef (lid, L) (mem_of_lookupA _ _ _ hlidc) x hxo
      rw [he, hlim] at this
      cases this
    obtain ⟨fw, fv, fbk, ⟨L', fL, fLp, fLperm⟩, fLf, fLs, fOs, fOf, ffld⟩ :=
      foldDelete_preserves lid (fillLoop s lid (getLimit s lid).orders oid).2.1
        (fillLoop s lid (getLimit s lid).orders oid).2.2 L1 rw1 rv1 rL1 rdnd1
        (fun x hx => rL1o ▸ (horders ▸ rdsub1 x hx))
    have hfe1 : (fill s lid oid).1 = (fillLoop s lid (getLimit s lid).orders oid).1 :=
      rfl
    have hfe2 : (fill s lid oid).2 =
        (fillLoop s lid (getLimit s lid).orders oid).2.1.foldl
          (fun st rid => deleteOrder st lid rid)
          (fillLoop s lid (getLimit s lid).orders oid).2.2 := rfl
    have htake := rtake1 (fun x hx => hside x hx)
    refine ⟨?_, ?_, ?_, ?_⟩
    · intro m hm
      rw [hfe1] at hm
      rw [rpr1 m hm, getLimit_of_lookupA s lid L hlidc]
    · rw [hfe1]
      exact htake
    · rcases rlast1 with hfilled | hdels
      · right
        rw [hfe2, fOf oid (fun h => hoidnot oid h rfl), hfilled]
      · left
        rw [hfe2, getLimit_of_lookupA _ lid L' fL]
        have hdiff : L1.orders.diff
            (fillLoop s lid (getLimit s lid).orders oid).2.1 = [] := by
          rw [hdels, rL1o, ← horders]
          exact diff_self_nil _ (horders ▸ hndL)
        rw [hdiff] at fLperm
        exact List.Perm.eq_nil fLperm
    · intro hts
      have h1 : ((fill s lid oid).1.map (residentOf (getOrder s oid).bid)).map
          (tsOf s.heapO) = ((getLimit s lid).orders.map (tsOf s.heapO)).take
            (fill s lid oid).1.length := by
        rw [hfe1, htake, List.map_take]
      have h2 : (fill s lid oid).1.map
          (fun m => tsOf s.heapO (residentOf (getOrder s oid).bid m))
          = ((fill s lid oid).1.map (residentOf (getOrder s oid).bid)).map
            (tsOf s.heapO) := by
        rw [List.map_map]
        rfl
      rw [h2, h1]
      refine List.Pairwise.sublist (List.take_sublist _ _) ?_
      exact (List.pairwise_map).mpr hts

end OBook
namespace OBook

/-- The whole market loop satisfies the level-by-level price-time contract, for a
well-formed starting state whose snapshot levels hold only opposite-side
residents. -/
theorem marketLoop_ptr (oid : Nat) (snap : List Nat) : ∀ (s : EngState),
    WF s → VolumesOk s →
    (lookupA s.heapO oid).isSome = true →
    (getOrder s oid).limit = none →
    (∀ lid ∈ snap, ∀ x ∈ (getLimit s lid).orders,
      (getOrder s x).bid = !(getOrder s oid).bid) →
    PriceTimeRun s snap oid := by
  induction snap with
  | nil =>
    intro s _ _ _ _ _
    exact trivial
  | cons lid rest ih =>
    intro s hwf hvol holive hlim hside
    obtain ⟨fw, fv, fbk, fLs, fOs, ffl, flim, fpr, fLf, fsub⟩ :=
      fill_preserves s lid oid hwf hvol holive hlim
    have folive : (lookupA (fill s lid oid).2.heapO oid).isSome = true := by
      rw [fOs oid]
      exact holive
    refine ⟨fill_priceTime s lid oid hwf hvol holive hlim
      (hside lid (List.mem_cons_self lid rest)), ?_⟩
    by_cases hemp : (getLimit (fill s lid oid).2 lid).orders = []
    · rw [if_pos hemp]
      obtain ⟨cw, cv, chL, chO⟩ :=
        clearLimit_preserves (fill s lid oid).2 true lid fw fv
      refine ih (clearLimit (fill s lid oid).2 true lid) cw cv ?_ ?_ ?_
      · rw [show (clearLimit (fill s lid oid).2 true lid).heapO
            = (fill s lid oid).2.heapO from chO]
        exact folive
      · rw [getOrder_congr_heapO (fill s lid oid).2 _ chO]
        exact flim
      · intro lid' hl x hx
        rw [getLimit_congr_heapL (fill s lid oid).2 _ chL] at hx
        rw [getOrder_congr_heapO (fill s lid oid).2 _ chO,
          getOrder_congr_heapO (fill s lid oid).2 _ chO, ffl x, ffl oid]
        by_cases he : lid' = lid
        · subst he
          exact hside lid' (List.mem_cons_self lid' rest) x (fsub x hx)
        · rw [fLf lid' he] at hx
          exact hside lid' (List.mem_cons_of_mem lid hl) x hx
    · rw [if_neg hemp]
      refine ih (fill s lid oid).2 fw fv folive flim ?_
      intro lid' hl x hx
      rw [ffl x, ffl oid]
      by_cases he : lid' = lid
      · subst he
        exact hside lid' (List.mem_cons_self lid' rest) x (fsub x hx)
      · rw [fLf lid' he] at hx
        exact hside lid' (List.mem_cons_of_mem lid hl) x hx

end OBook
namespace OBook

theorem pairwise_of_mem_eq {α : Type} (R : α → α → Prop) (c : α) (h : R c c)
    (l : List α) (hl : ∀ x ∈ l, x = c) : l.Pairwise R := by
  induction l with
  | nil => exact List.Pairwise.nil
  | cons a t ih =>
    refine List.Pairwise.cons ?_ (ih (fun x hx => hl x (List.mem_cons_of_mem a hx)))
    intro y hy
    rw [hl a (List.mem_cons_self a t), hl y (List.mem_cons_of_mem a hy)]
    exact h

/-- Every Match of one `Fill` call carries the level's price. -/
theorem fill_prices (s : EngState) (lid oid : Nat)
    (hwf : WF s) (hvol : VolumesOk s)
    (holive : (lookupA s.heapO oid).isSome = true)
    (hlim : (getOrder s oid).limit = none) :
    ∀ m ∈ (fill s lid oid).1, m.price = priceOf s lid := by
  cases hlidc : lookupA s.heapL lid with
  | none =>
    have h0 : (getLimit s lid).orders = ([] : List Nat) := by
      unfold getLimit
      rw [hlidc]
      rfl
    have hfe : fill s lid oid = (([] : List Match), s) := by
      unfold fill
      rw [h0]
      rfl
    intro m hm
    rw [hfe] at hm
    cases hm
  | some L =>
    have horders : (getLimit s lid).orders = L.orders := by
      rw [getLimit_of_lookupA s lid L hlidc]
    have hndL : L.orders.Nodup := hwf.ordNodup (lid, L) (mem_of_lookupA _ _ _ hlidc)
    obtain ⟨-, -, -, -, -, -, -, -, -, -, rpr1, -, -⟩ :=
      fillLoop_run lid oid (getLimit s lid).orders s L hwf hvol hlidc
        (fun x hx => horders ▸ hx) (horders ▸ hndL) holive hlim
    intro m hm
    have hm1 : m ∈ (fillLoop s lid (getLimit s lid).orders oid).1 := hm
    rw [rpr1 m hm1]
    unfold priceOf
    rw [getLimit_of_lookupA s lid L hlidc]

/-- Along the market loop, Matches inherit the (frozen) prices of their snapshot
levels, in snapshot order: for any reflexive price relation under which the
snapshot is pairwise sorted, the emitted Match prices are pairwise sorted. -/
theorem marketLoop_prices (oid : Nat) (le : ℚ → ℚ → Prop) (href : ∀ x, le x x)
    (snap : List Nat) : ∀ (s s0 : EngState),
    WF s → VolumesOk s →
    (lookupA s.heapO oid).isSome = true →
    (getOrder s oid).limit = none →
    (∀ k, priceOf s k = priceOf s0 k) →
    snap.Pairwise (fun a b1 => le (priceOf s0 a) (priceOf s0 b1)) →
    (∀ m ∈ (marketLoop s snap oid).1, ∃ lid ∈ snap, m.price = priceOf s0 lid) ∧
    ((marketLoop s snap oid).1.map Match.price).Pairwise le := by
  induction snap with
  | nil =>
    intro s s0 _ _ _ _ _ _
    refine ⟨?_, List.Pairwise.nil⟩
    intro m hm
    cases hm
  | cons lid rest ih =>
    intro s s0 hwf hvol holive hlim hpr hpw
    obtain ⟨fw, fv, fbk, fLs, fOs, ffl, flim, fpc, fLf, fsub⟩ :=
      fill_preserves s lid oid hwf hvol holive hlim
    have folive : (lookupA (fill s lid oid).2.heapO oid).isSome = true := by
      rw [fOs oid]
      exact holive
    have hpw1 := (List.pairwise_cons.mp hpw).1
    have hpw2 := (List.pairwise_cons.mp hpw).2
    have hfillpr : ∀ m ∈ (fill s lid oid).1, m.price = priceOf s0 lid := by
      intro m hm
      rw [fill_prices s lid oid hwf hvol holive hlim m hm, hpr lid]
    rw [marketLoop_cons]
    by_cases hemp : (getLimit (fill s lid oid).2 lid).orders = []
    · rw [if_pos hemp]
      obtain ⟨cw, cv, chL, chO⟩ :=
        clearLimit_preserves (fill s lid oid).2 true lid fw fv
      have hco : (lookupA (clearLimit (fill s lid oid).2 true lid).heapO oid).isSome
          = true := by
        rw [show (clearLimit (fill s lid oid).2 true lid).heapO
            = (fill s lid oid).2.heapO from chO]
        exact folive
      have hcl : (getOrder (clearLimit (fill s lid oid).2 true lid) oid).limit
          = none := by
        rw [getOrder_congr_heapO (fill s lid oid).2 _ chO]
        exact flim
      have hcp : ∀ k, priceOf (clearLimit (fill s lid oid).2 true lid) k
          = priceOf s0 k := by
        intro k
        unfold priceOf
        rw [getLimit_congr_heapL (fill s lid oid).2 _ chL]
        have := fpc k
        unfold priceOf at this
        rw [this]
        have := hpr k
        unfold priceOf at this
        rw [this]
      obtain ⟨ihmem, ihpw⟩ := ih (clearLimit (fill s lid oid).2 true lid) s0 cw cv
        hco hcl hcp hpw2
      refine ⟨?_, ?_⟩
      · intro m hm
        rcases List.mem_append.mp hm with hmf | hmr
        · exact ⟨lid, List.mem_cons_self lid rest, hfillpr m hmf⟩
        · obtain ⟨lid', hl', he⟩ := ihmem m hmr
          exact ⟨lid', List.mem_cons_of_mem lid hl', he⟩
      · rw [List.map_append]
        refine (List.pairwise_append).mpr ⟨?_, ihpw, ?_⟩
        · refine pairwise_of_mem_eq le (priceOf s0 lid) (href _) _ ?_
          intro x hx
          obtain ⟨m, hm, he⟩ := List.mem_map.mp hx
          rw [← he]
          exact hfillpr m hm
        · intro a ha b hb
          obtain ⟨m, hm, he⟩ := List.mem_map.mp ha
          obtain ⟨m', hm', he'⟩ := List.mem_map.mp hb
          obtain ⟨lid', hl', hpe⟩ := ihmem m' hm'
          rw [← he, ← he', hfillpr m hm, hpe]
          exact hpw1 lid' hl'
    · rw [if_neg hemp]
      have hcp : ∀ k, priceOf (fill s lid oid).2 k = priceOf s0 k := by
        intro k
        rw [fpc k, hpr k]
      obtain ⟨ihmem, ihpw⟩ := ih (fill s lid oid).2 s0 fw fv folive flim hcp hpw2
      refine ⟨?_, ?_⟩
      · intro m hm
        rcases List.mem_append.mp hm with hmf | hmr
        · exact ⟨lid, List.mem_cons_self lid rest, hfillpr m hmf⟩
        · obtain ⟨lid', hl', he⟩ := ihmem m hmr
          exact ⟨lid', List.mem_cons_of_mem lid hl', he⟩
      · rw [List.map_append]
        refine (List.pairwise_append).mpr ⟨?_, ihpw, ?_⟩
        · refine pairwise_of_mem_eq le (priceOf s0 lid) (href _) _ ?_
          intro x hx
          obtain ⟨m, hm, he⟩ := List.mem_map.mp hx
          rw [← he]
          exact hfillpr m hm
        · intro a ha b hb
          obtain ⟨m, hm, he⟩ := List.mem_map.mp ha
          obtain ⟨m', hm', he'⟩ := List.mem_map.mp hb
          obtain ⟨lid', hl', hpe⟩ := ihmem m' hm'
          rw [← he, ← he', hfillpr m hm, hpe]
          exact hpw1 lid' hl'

end OBook
namespace OBook

/-- C5: for every executing market order (well-formed, volume-consistent book;
live incoming order with nil back reference; opposite-side residents on the
snapshot levels), the returned Matches are the matches of the market loop over the
sorted snapshot, their prices are monotone in the book-priority direction
(nondecreasing for a market bid over the ascending asks, nonincreasing for a
market ask over the descending bids), and the run satisfies the level-by-level
price-time contract `PriceTimeRun`: every Match carries its level's price, a level
is exhausted (or the order fully filled) before the next level is touched, within
one level the fills hit the residents front-to-back, and — whenever that level's
residents rest in strictly increasing arrival-timestamp order — earliest arrival
first. -/
theorem c5_price_time_priority (s : EngState) (oid : Nat) (ms : List Match)
    (s' : EngState) (hwf : WF s) (hvol : VolumesOk s)
    (holive : (lookupA s.heapO oid).isSome = true)
    (hlim : (getOrder s oid).limit = none)
    (hside : ∀ lid ∈ (marketSnapshot s oid).2, ∀ x ∈ (getLimit s lid).orders,
      (getOrder s x).bid = !(getOrder s oid).bid)
    (hok : placeMarketOrder s oid = .ok (ms, s')) :
    ms = (marketLoop (marketSnapshot s oid).1 (marketSnapshot s oid).2 oid).1 ∧
    PriceTimeRun (marketSnapshot s oid).1 (marketSnapshot s oid).2 oid ∧
    List.Pairwise (fun m1 m2 : Match =>
      if (getOrder s oid).bid = true then m1.price ≤ m2.price
      else m2.price ≤ m1.price) ms := by
  simp only [placeMarketOrder] at hok
  cases hbv : (getOrder s oid).bid with
  | true =>
    have hsnap : marketSnapshot s oid
        = ({ s with book := { s.book with asks := sortedAsks s } }, sortedAsks s) := by
      simp only [marketSnapshot, hbv, eq_self_iff_true, if_true]
    rw [hbv, if_pos rfl] at hok
    by_cases hvc : askTotalVolume s < (getOrder s oid).size
    · rw [if_pos hvc] at hok
      cases hok
    · rw [if_neg hvc] at hok
      have hinj : marketLoop { s with book := { s.book with asks := sortedAsks s } }
          (sortedAsks s) oid = (ms, s') := by
        injection hok
      have hms : ms = (marketLoop { s with book :=
          { s.book with asks := sortedAsks s } } (sortedAsks s) oid).1 := by
        rw [hinj]
      have hw1 : WF { s with book := { s.book with asks := sortedAsks s } } :=
        wf_of_heaps_books s _ rfl rfl (fun e he => he) (fun e he => he) hwf
      have hv1 : VolumesOk { s with book := { s.book with asks := sortedAsks s } } :=
        volumesOk_of_heaps_eq s _ rfl rfl hvol
      have hside1 : ∀ lid ∈ sortedAsks s,
          ∀ x ∈ (getLimit { s with book :=
            { s.book with asks := sortedAsks s } } lid).orders,
          (getOrder { s with book := { s.book with asks := sortedAsks s } } x).bid
            = !(getOrder { s with book :=
              { s.book with asks := sortedAsks s } } oid).bid := by
        intro lid hl x hx
        refine hside lid ?_ x hx
        rw [hsnap]
        exact hl
      have hsorted : (sortedAsks s).Pairwise
          (fun a b1 => priceOf s a ≤ priceOf s b1) := by
        haveI h1 : IsTotal Nat (fun a b1 => priceOf s a ≤ priceOf s b1) :=
          ⟨fun a b1 => le_total _ _⟩
        haveI h2 : IsTrans Nat (fun a b1 => priceOf s a ≤ priceOf s b1) :=
          ⟨fun a b1 c ha hb => le_trans ha hb⟩
        exact List.sorted_insertionSort _ _
      refine ⟨by rw [hsnap]; exact hms, ?_, ?_⟩
      · rw [hsnap]
        exact marketLoop_ptr oid (sortedAsks s) _ hw1 hv1 holive hlim hside1
      · simp only [hbv, eq_self_iff_true, if_true]
        rw [hms]
        have hp := (marketLoop_prices oid (fun a b1 => a ≤ b1) (fun x => le_refl x)
          (sortedAsks s) _ s hw1 hv1 holive hlim (fun k => rfl) hsorted).2
        exact List.pairwise_map.mp hp
  | false =>
    have hsnap : marketSnapshot s oid
        = ({ s with book := { s.book with bids := sortedBids s } }, sortedBids s) := by
      simp only [marketSnapshot, hbv, Bool.false_eq_true, if_false]
    rw [hbv, if_neg (by simp)] at hok
    by_cases hvc : bidTotalVolume s < (getOrder s oid).size
    · rw [if_pos hvc] at hok
      cases hok
    · rw [if_neg hvc] at hok
      have hinj : marketLoop { s with book := { s.book with bids := sortedBids s } }
          (sortedBids s) oid = (ms, s') := by
        injection hok
      have hms : ms = (marketLoop { s with book :=
          { s.book with bids := sortedBids s } } (sortedBids s) oid).1 := by
        rw [hinj]
      have hw1 : WF { s with book := { s.book with bids := sortedBids s } } :=
        wf_of_heaps_books s _ rfl rfl (fun e he => he) (fun e he => he) hwf
      have hv1 : VolumesOk { s with book := { s.book with bids := sortedBids s } } :=
        volumesOk_of_heaps_eq s _ rfl rfl hvol
      have hside1 : ∀ lid ∈ sortedBids s,
          ∀ x ∈ (getLimit { s with book :=
            { s.book with bids := sortedBids s } } lid).orders,
          (getOrder { s with book := { s.book with bids := sortedBids s } } x).bid
            = !(getOrder { s with book :=
              { s.book with bids := sortedBids s } } oid).bid := by
        intro lid hl x hx
        refine hside lid ?_ x hx
        rw [hsnap]
        exact hl
      have hsorted : (sortedBids s).Pairwise
          (fun a b1 => priceOf s b1 ≤ priceOf s a) := by
        haveI h1 : IsTotal Nat (fun a b1 => priceOf s b1 ≤ priceOf s a) :=
          ⟨fun a b1 => (le_total _ _).symm⟩
        haveI h2 : IsTrans Nat (fun a b1 => priceOf s b1 ≤ priceOf s a) :=
          ⟨fun a b1 c ha hb => le_trans hb ha⟩
        exact List.sorted_insertionSort _ _
      refine ⟨by rw [hsnap]; exact hms, ?_, ?_⟩
      · rw [hsnap]
        exact marketLoop_ptr oid (sortedBids s) _ hw1 hv1 holive hlim hside1
      · simp only [hbv, Bool.false_eq_true, if_false]
        rw [hms]
        have hp := (marketLoop_prices oid (fun a b1 => b1 ≤ a) (fun x => le_refl x)
          (sortedBids s) _ s hw1 hv1 holive hlim (fun k => rfl) hsorted).2
        exact List.pairwise_map.mp hp

/-- C5 witness: the price-time contract instantiated on the two-ask-level book
`c5s` with its size-7 market bid, all hypotheses discharged on the concrete
state. -/
theorem c5_price_time_priority_witness :
    c5res.1 = (marketLoop (marketSnapshot c5s 2).1 (marketSnapshot c5s 2).2 2).1 ∧
    PriceTimeRun (marketSnapshot c5s 2).1 (marketSnapshot c5s 2).2 2 ∧
    List.Pairwise (fun m1 m2 : Match =>
      if (getOrder c5s 2).bid = true then m1.price ≤ m2.price
      else m2.price ≤ m1.price) c5res.1 := by
  have hwf : WF c5s := by
    refine ⟨by decide, by decide, by decide, by decide, by decide, ?_, by decide,
      by decide⟩
    intro q hq lid hq2
    rcases List.mem_cons.mp hq with rfl | hq
    · have h2 : some (0 : Nat) = some lid := hq2
      injection h2 with h3
      subst h3
      exact ⟨by decide, by decide⟩
    rcases List.mem_cons.mp hq with rfl | hq
    · have h2 : some (1 : Nat) = some lid := hq2
      injection h2 with h3
      subst h3
      exact ⟨by decide, by decide⟩
    rcases List.mem_cons.mp hq with rfl | hq
    · have h2 : (none : Option Nat) = some lid := hq2
      cases h2
    · cases hq
  exact c5_price_time_priority c5s 2 c5res.1 c5res.2 hwf
    (by unfold VolumesOk; decide) (by decide) (by decide) (by decide) (by decide)

end OBook
